import Mathlib

set_option maxRecDepth 8000
set_option maxHeartbeats 1000000

/-!
Verification development for the FSA local NLP service
(`apps/backend/src/services/ai/local-nlp/main.py`).

The Python module is embedded shallowly: input text is a `List Char`
(Python `str`), each regular expression of the source is hand-compiled
into an executable matcher with the same backtracking semantics at the
position it is tried, and `re.search` / `re.finditer` / `re.sub` become
the scanning combinators of this file.  Python's `datetime` values are
the record `PyDateTime` below (days since 1970-01-01 plus time-of-day
fields); the ISO string produced by `isoformat()` is modeled by the
`PyDateTime` value itself, since `isoformat` is injective.  `LOCAL_NOW`
(the wall clock) is modeled as a stream `Nat → PyDateTime` of successive
readings, threaded through the date extractor exactly where the Python
code calls `LOCAL_NOW()`; a constant stream recovers the situation in
which the clock does not tick during a call.

Characters: Python's `\w`, `\s`, `str.lower` are Unicode-aware; the
embedding covers ASCII plus the Greek block (the only alphabets the
source's patterns and data use), and `$` is modeled as end of string
(the before-a-final-newline case of Python is not modeled).
-/

namespace FsaNlp

/-! ### A. Characters and Python string helpers -/

/-- The brace characters, written via code points. -/
def lbrace : Char := Char.ofNat 123

def rbrace : Char := Char.ofNat 125

def squote : Char := Char.ofNat 39

def dquote : Char := Char.ofNat 34

/-- Python `\s` (ASCII part): space, tab, newline, carriage return,
vertical tab, form feed. -/
def isSpc (c : Char) : Bool :=
  c = ' ' || c = Char.ofNat 9 || c = Char.ofNat 10 || c = Char.ofNat 13 ||
  c = Char.ofNat 11 || c = Char.ofNat 12

def isDigitC (c : Char) : Bool := '0' ≤ c && c ≤ '9'

def isAsciiAlpha (c : Char) : Bool :=
  ('a' ≤ c && c ≤ 'z') || ('A' ≤ c && c ≤ 'Z')

/-- The code-point range `Α-Ω` of the source's character classes
(0x391–0x3A9, taken literally as a range). -/
def isGreekCap (c : Char) : Bool := 0x391 ≤ c.toNat && c.toNat ≤ 0x3A9

/-- The code-point range `α-ω` (0x3B1–0x3C9). -/
def isGreekLow (c : Char) : Bool := 0x3B1 ≤ c.toNat && c.toNat ≤ 0x3C9

/-- Greek letters of the Greek-and-Coptic block that Python counts as
word characters (`\w`): the accented capitals/smalls plus the base
ranges. -/
def isGreekWordChar (c : Char) : Bool :=
  isGreekCap c || isGreekLow c ||
  c.toNat = 0x386 || (0x388 ≤ c.toNat && c.toNat ≤ 0x38A) ||
  c.toNat = 0x38C || (0x38E ≤ c.toNat && c.toNat ≤ 0x390) ||
  (0x3AA ≤ c.toNat && c.toNat ≤ 0x3B0) || (0x3CA ≤ c.toNat && c.toNat ≤ 0x3CE)

/-- Python `\w` over the alphabets used by the source. -/
def isWordChar (c : Char) : Bool :=
  isAsciiAlpha c || isDigitC c || c = '_' || isGreekWordChar c

/-- Python `str.lower` over ASCII and Greek capitals (identity
elsewhere). -/
def pyLowerChar (c : Char) : Char :=
  if 'A' ≤ c && c ≤ 'Z' then Char.ofNat (c.toNat + 32)
  else if isGreekCap c then Char.ofNat (c.toNat + 32)
  else if c.toNat = 0x386 then Char.ofNat 0x3AC
  else if c.toNat = 0x388 then Char.ofNat 0x3AD
  else if c.toNat = 0x389 then Char.ofNat 0x3AE
  else if c.toNat = 0x38A then Char.ofNat 0x3AF
  else if c.toNat = 0x38C then Char.ofNat 0x3CC
  else if c.toNat = 0x38E then Char.ofNat 0x3CD
  else if c.toNat = 0x38F then Char.ofNat 0x3CE
  else c

/-- Length of the maximal run of characters satisfying `p` at the head. -/
def runLen (p : Char → Bool) : List Char → Nat
  | [] => 0
  | c :: r => if p c then runLen p r + 1 else 0

/-- Python `str.lstrip()` (default whitespace). -/
def trimLeft (s : List Char) : List Char := s.dropWhile isSpc

/-- Python `str.rstrip()` (default whitespace), written structurally so
that the head of the result is the head of the input. -/
def trimRight : List Char → List Char
  | [] => []
  | c :: r =>
    match trimRight r with
    | [] => if isSpc c then [] else [c]
    | t => c :: t

/-- Python `str.strip()`. -/
def pyStrip (s : List Char) : List Char := trimRight (trimLeft s)

/-- Python `str.split()` (split on whitespace runs, no empty fields). -/
def splitWS : List Char → List (List Char)
  | [] => []
  | c :: r =>
    if isSpc c then splitWS r
    else (c :: r.takeWhile (fun d => !isSpc d)) :: splitWS (r.dropWhile (fun d => !isSpc d))
termination_by s => s.length
decreasing_by
  · simp only [List.length_cons]; omega
  · have := (List.dropWhile_sublist (l := r) (p := fun d => !isSpc d)).length_le
    simp only [List.length_cons]; omega

/-- Python `' '.join(ws)`. -/
def joinSpace : List (List Char) → List Char
  | [] => []
  | [w] => w
  | w :: ws => w ++ ' ' :: joinSpace ws

/-- Case-insensitive comparison of a text character against a
(lowercase) pattern character, modeling `re.IGNORECASE`. -/
def eqCI (c pat : Char) : Bool := pyLowerChar c = pat

/-- `pat` (already lowercase) is a prefix of `s` up to case folding. -/
def isPrefCI : List Char → List Char → Bool
  | [], _ => true
  | _ :: _, [] => false
  | p :: ps, c :: cs => eqCI c p && isPrefCI ps cs

/-- Case-sensitive literal prefix test. -/
def isPrefLit : List Char → List Char → Bool
  | [], _ => true
  | _ :: _, [] => false
  | p :: ps, c :: cs => (c = p) && isPrefLit ps cs

/-- Substring containment (Python `in` on strings). -/
def containsSub (pat : List Char) : List Char → Bool
  | [] => isPrefLit pat []
  | c :: r => isPrefLit pat (c :: r) || containsSub pat r

/-- No word character on the left: the left half of a `\b` whose right
side is a word character.  `prev` is the character just before the
current position (`none` at the start of the text). -/
def noWordBefore : Option Char → Bool
  | none => true
  | some c => !isWordChar c

/-- The right half of a `\b` whose left side is a word character: at
offset `n` into the suffix `s`, either the string ends or a non-word
character follows. -/
def wordEndsAt (s : List Char) (n : Nat) : Bool :=
  match s.drop n with
  | [] => true
  | c :: _ => !isWordChar c

/-! ### B. Scanning combinators

`Bool`-valued searchers model `re.search(...) is not None`; the fueled
scanner models `re.finditer` (leftmost match, continue after its end,
advance one character on failure); `reSub` models `re.sub(pat, ' ', s)`.
Matchers receive the character preceding the current position (for `\b`)
and the suffix of the text at the position. -/

/-- `re.search` as a Boolean: does the matcher succeed at any position? -/
def reSearch (m : Option Char → List Char → Bool) : List Char → Bool :=
  go none
where
  go : Option Char → List Char → Bool
    | prev, s =>
      m prev s ||
        match s with
        | [] => false
        | c :: r => go (some c) r

/-- First match of a capturing matcher, scanning left to right. -/
def reFind {α : Type} (m : Option Char → List Char → Option α) :
    Option Char → List Char → Option α
  | prev, s =>
    match m prev s with
    | some a => some a
    | none =>
      match s with
      | [] => none
      | c :: r => reFind m (some c) r

/-- `re.sub(pat, ' ', s)`, fueled: each (non-empty) match is replaced by
one space and scanning resumes after the match; the `prev` character fed
to `\b` tests is taken from the original text.  Every step consumes at
least one character, so `length + 1` fuel always suffices. -/
def reSubF (m : Option Char → List Char → Option Nat) :
    Nat → Option Char → List Char → List Char
  | 0, _, s => s
  | fuel + 1, prev, s =>
    match s with
    | [] => []
    | c :: r =>
      match m prev s with
      | some L =>
        if 0 < L ∧ L ≤ s.length then
          ' ' :: reSubF m fuel ((s.take L).getLast?) (s.drop L)
        else c :: reSubF m fuel (some c) r
      | none => c :: reSubF m fuel (some c) r

def reSub (m : Option Char → List Char → Option Nat) (s : List Char) : List Char :=
  reSubF m (s.length + 1) none s

/-- `re.finditer`, fueled: emits `(start, end, capture)` triples; the
matcher here needs no left context (the entity patterns carry no `\b`).
The guard `0 < L ∧ L ≤ s.length` always holds for the matchers used. -/
def scanAllF {κ : Type} (m : List Char → Option (Nat × κ)) :
    Nat → List Char → Nat → List (Nat × Nat × κ)
  | 0, _, _ => []
  | fuel + 1, s, i =>
    match m s with
    | some (L, k) =>
      if 0 < L ∧ L ≤ s.length then
        (i, i + L, k) :: scanAllF m fuel (s.drop L) (i + L)
      else if s.isEmpty then [] else scanAllF m fuel s.tail (i + 1)
    | none => if s.isEmpty then [] else scanAllF m fuel s.tail (i + 1)

def scanAll {κ : Type} (m : List Char → Option (Nat × κ)) (text : List Char) :
    List (Nat × Nat × κ) :=
  scanAllF m (text.length + 1) text 0

/-! ### C. Entity extractor (`LocalNLPProcessor._extract_entities`) -/

structure EntityMatch where
  type : List Char
  value : List Char
  symbol : Char
  start : Nat
  «end» : Nat
deriving DecidableEq

/-- Matcher for the structured form `(\w+)=\{([^}]+)\}` at one position:
a maximal non-empty `\w` run (greedy `\w+` must be maximal, since `=` is
a non-word character), then `={`, a non-empty run without `}` (greedy
`[^}]+` stops at the first `}`), then `}`. -/
def mStruct (u : List Char) : Option (Nat × (List Char × List Char)) :=
  let r := runLen isWordChar u
  let rest := u.drop r
  if 0 < r ∧ 2 ≤ rest.length ∧ rest.getD 0 ' ' = '=' ∧ rest.getD 1 ' ' = lbrace then
    let v := rest.drop 2
    let p := runLen (fun c => c ≠ rbrace) v
    if 0 < p ∧ v.drop p ≠ [] ∧ (v.drop p).headI = rbrace then
      some (r + 2 + p + 1, (u.take r, v.take p))
    else none
  else none

/-- First character class of the `@ # + &` patterns:
`[A-Za-zΑ-Ωα-ω0-9]`. -/
def symFirst (c : Char) : Bool :=
  isAsciiAlpha c || isGreekCap c || isGreekLow c || isDigitC c

/-- Continuation class `[A-Za-zΑ-Ωα-ω0-9\s\-\.\_]`. -/
def symCont (c : Char) : Bool :=
  symFirst c || isSpc c || c = '-' || c = '.' || c = '_'

/-- Stop-word lookahead of the symbol patterns:
`(?=\s+(?:w₁|…|wₙ|$)|$)`.  The stop words begin with non-whitespace
characters, so only the maximal whitespace run can precede one. -/
def symLook (stops : List (List Char)) (v : List Char) : Bool :=
  v.isEmpty ||
    (let r := runLen isSpc v
     0 < r && ((v.drop r).isEmpty || stops.any (fun w => isPrefLit w (v.drop r))))

/-- The lazy bounded tail `[...]{0,60}?(?=look)`: at each step first try
the lookahead, else consume one continuation character (at most 60). -/
def symTail (cont : Char → Bool) (look : List Char → Bool) : Nat → List Char → Option Nat
  | _, [] => if look [] then some 0 else none
  | 0, c :: r => if look (c :: r) then some 0 else none
  | b + 1, c :: r =>
    if look (c :: r) then some 0
    else if cont c then (symTail cont look b r).map (· + 1) else none

/-- One `@`-family symbol pattern at one position:
`σ([first][cont]{0,60}?)(?=look)`. -/
def mSym (σ : Char) (stops : List (List Char)) (u : List Char) : Option (Nat × Unit) :=
  if 2 ≤ u.length ∧ u.getD 0 ' ' = σ ∧ symFirst (u.getD 1 ' ') then
    (symTail symCont (symLook stops) 60 (u.drop 2)).map (fun t => (2 + t, ()))
  else none

/-- The `/([0-9]+)(?=\s|$)` pattern at one position. -/
def mSlash (u : List Char) : Option (Nat × Unit) :=
  if 1 ≤ u.length ∧ u.getD 0 ' ' = '/' then
    let v := u.drop 1
    let d := runLen isDigitC v
    if 0 < d ∧ (v.drop d = [] ∨ isSpc (v.drop d).headI) then
      some (1 + d, ())
    else none
  else none

/-- Lookahead word list of the `@` pattern (the source lists `μέχρι`
twice). -/
def stopsAt : List (List Char) :=
  ["for".toList, "in".toList, "with".toList, "due".toList, "at".toList,
   "from".toList, "by".toList, "από".toList, "για".toList, "σε".toList,
   "με".toList, "μέχρι".toList, "στις".toList, "στο".toList, "στη".toList,
   "έως".toList, "ως".toList, "μέχρι".toList]

/-- Lookahead word list of the `#`, `+`, `&` patterns. -/
def stopsHash : List (List Char) :=
  ["for".toList, "in".toList, "with".toList, "due".toList, "at".toList,
   "from".toList, "by".toList, "από".toList, "για".toList, "σε".toList,
   "με".toList, "μέχρι".toList, "στις".toList, "στο".toList, "στη".toList,
   "έως".toList, "ως".toList]

def valid_types : List (List Char) :=
  ["task".toList, "personnel".toList, "work_order".toList,
   "project".toList, "client".toList]

/-- `m.group(1).strip()` of a symbol match spanning `[a, b)`: the capture
is the text between the symbol and the match end. -/
def symValue (text : List Char) (a b : Nat) : List Char :=
  pyStrip ((text.drop (a + 1)).take (b - a - 1))

def symEntities (text : List Char) (σ : Char) (ty : List Char)
    (stops : List (List Char)) : List EntityMatch :=
  (scanAll (mSym σ stops) text).map
    (fun x => ⟨ty, symValue text x.1 x.2.1, σ, x.1, x.2.1⟩)

def slashEntities (text : List Char) : List EntityMatch :=
  (scanAll mSlash text).map
    (fun x => ⟨"task".toList, symValue text x.1 x.2.1, '/', x.1, x.2.1⟩)

/-- The structured `type={id}` entities: every structured match consumes
its span, but only matches whose type is in `valid_types` are kept. -/
def structEntities (text : List Char) : List EntityMatch :=
  ((scanAll mStruct text).filter (fun x => valid_types.contains x.2.2.1)).map
    (fun x => ⟨x.2.2.1, x.2.2.2, '=', x.1, x.2.1⟩)

/-- `LocalNLPProcessor._extract_entities`: structured `type={id}` matches
first; if no valid structured entity was found, scan the five
symbol-prefixed patterns in the order `@ # / + &`. -/
def extract_entities (text : List Char) : List EntityMatch :=
  if (structEntities text).isEmpty then
    symEntities text '@' ("personnel".toList) stopsAt ++
    symEntities text '#' ("work_order".toList) stopsHash ++
    slashEntities text ++
    symEntities text '+' ("project".toList) stopsHash ++
    symEntities text '&' ("client".toList) stopsHash
  else structEntities text

/-- Stable insertion for descending sort by `start`
(Python `sorted(entities, key=lambda x: x.start, reverse=True)`). -/
def insertDesc (e : EntityMatch) : List EntityMatch → List EntityMatch
  | [] => [e]
  | x :: xs => if x.start ≤ e.start then e :: x :: xs else x :: insertDesc e xs

def sortByStartDesc : List EntityMatch → List EntityMatch
  | [] => []
  | e :: rest => insertDesc e (sortByStartDesc rest)

/-- The title resolver's excision loop:
`clean = clean[:e.start] + clean[e.end:]`, applied in list order. -/
def exciseAll (text : List Char) (es : List EntityMatch) : List Char :=
  es.foldl (fun acc e => acc.take e.start ++ acc.drop e.«end») text

def sumSpans (es : List EntityMatch) : Nat :=
  (es.map (fun e => e.«end» - e.start)).sum

/-! ### E. Date/time model and the DateTime resolver

`PyDateTime` models a Python `datetime`: a day count since 1970-01-01
(proleptic Gregorian) plus the time-of-day fields.  `LOCAL_NOW` is a
stream of readings `clock : Nat → PyDateTime` with a cursor that each
call advances, mirroring each `LOCAL_NOW()` call site of the source. -/

structure PyDateTime where
  days : Int
  hour : Nat
  minute : Nat
  second : Nat
  microsecond : Nat
deriving DecidableEq

/-- `now + timedelta(days=n)`. -/
def addDays (dt : PyDateTime) (n : Nat) : PyDateTime :=
  { dt with days := dt.days + Int.ofNat n }

/-- `dt.replace(hour=h, minute=mn, second=0, microsecond=0)`. -/
def setHMS (dt : PyDateTime) (h mn : Nat) : PyDateTime :=
  { dt with hour := h, minute := mn, second := 0, microsecond := 0 }

/-- Python `datetime.weekday()`: Monday = 0.  1970-01-01 was a Thursday
(= 3). -/
def weekdayOf (dt : PyDateTime) : Nat := ((dt.days + 3) % 7).toNat

def isLeapYear (y : Int) : Bool := (y % 4 = 0 && y % 100 ≠ 0) || y % 400 = 0

def daysInMonth (y : Int) (m : Nat) : Nat :=
  if m = 2 then (if isLeapYear y then 29 else 28)
  else if m = 4 ∨ m = 6 ∨ m = 9 ∨ m = 11 then 30
  else 31

/-- The dates `datetime(y, m, d, ...)` accepts (MINYEAR = 1,
MAXYEAR = 9999); anything else raises `ValueError`. -/
def isValidPyDate (y : Int) (m d : Nat) : Bool :=
  1 ≤ y && y ≤ 9999 && 1 ≤ m && m ≤ 12 && 1 ≤ d && d ≤ daysInMonth y m

/-- Days since 1970-01-01 of a civil date (Hinnant's algorithm). -/
def daysFromCivil (y : Int) (m d : Nat) : Int :=
  let y2 : Int := if m ≤ 2 then y - 1 else y
  let era : Int := (if 0 ≤ y2 then y2 else y2 - 399) / 400
  let yoe : Int := y2 - era * 400
  let mp : Int := (Int.ofNat m + 9) % 12
  let doy : Int := (153 * mp + 2) / 5 + Int.ofNat d - 1
  let doe : Int := yoe * 365 + yoe / 4 - yoe / 100 + doy
  era * 146097 + doe - 719468

/-- Civil date of a day count (Hinnant's algorithm):
`(year, month, day)`. -/
def civilFromDays (z0 : Int) : Int × Nat × Nat :=
  let z := z0 + 719468
  let era : Int := (if 0 ≤ z then z else z - 146096) / 146097
  let doe : Int := z - era * 146097
  let yoe : Int := (doe - doe / 1460 + doe / 36524 - doe / 146096) / 365
  let y : Int := yoe + era * 400
  let doy : Int := doe - (365 * yoe + yoe / 4 - yoe / 100)
  let mp : Int := (5 * doy + 2) / 153
  let d : Int := doy - (153 * mp + 2) / 5 + 1
  let m : Int := if mp < 10 then mp + 3 else mp - 9
  (if m ≤ 2 then y + 1 else y, m.toNat, d.toNat)

def yearOf (dt : PyDateTime) : Int := (civilFromDays dt.days).1

/-- `datetime(y, m, d, now.hour, now.minute, now.second,
now.microsecond)`, as an `Option` (the source wraps the call in
`try/except ValueError`). -/
def mkDatetime (y : Int) (m d : Nat) (now : PyDateTime) : Option PyDateTime :=
  if isValidPyDate y m d then
    some ⟨daysFromCivil y m d, now.hour, now.minute, now.second, now.microsecond⟩
  else none

/-! #### Word matchers (Option-valued: match length or capture) -/

/-- `\bw\b` with `re.IGNORECASE` (`w` given lowercase). -/
def mWordCI (w : List Char) : Option Char → List Char → Option Nat :=
  fun prev s =>
    if noWordBefore prev && isPrefCI w s && wordEndsAt s w.length then some w.length
    else none

/-- `\bw\b`, case-sensitive. -/
def mWordLit (w : List Char) : Option Char → List Char → Option Nat :=
  fun prev s =>
    if noWordBefore prev && isPrefLit w s && wordEndsAt s w.length then some w.length
    else none

/-- A `\b`-delimited word sequence `\bw₁\s+w₂\s+…\s+wₙ\b`
(case-insensitive), returning the match length.  Inner `\s+` runs are
forced to be maximal because every word starts with a non-space
character. -/
def seqLenCI : List (List Char) → List Char → Option Nat
  | [], _ => none
  | [w], s => if isPrefCI w s && wordEndsAt s w.length then some w.length else none
  | w :: w2 :: ws, s =>
    if isPrefCI w s then
      let r := runLen isSpc (s.drop w.length)
      if 1 ≤ r then
        (seqLenCI (w2 :: ws) (s.drop (w.length + r))).map (fun t => w.length + r + t)
      else none
    else none

def mWordSeqCI (ws : List (List Char)) : Option Char → List Char → Option Nat :=
  fun prev s => if noWordBefore prev then seqLenCI ws s else none

/-- `\b(alt₁|alt₂|…)\b` (case-insensitive): the engine tries the
alternatives in order, each followed by the trailing `\b`. -/
def mWordAltCI (alts : List (List (List Char))) : Option Char → List Char → Option Nat :=
  fun prev s =>
    if noWordBefore prev then alts.findSome? (fun ws => seqLenCI ws s) else none

def searchO {α : Type} (m : Option Char → List Char → Option α) (s : List Char) : Bool :=
  (reFind m none s).isSome

/-! #### Weekdays, relative dates, part of day -/

/-- `GREEK_WEEKDAYS` (the source lists `δευτερα` twice for Monday). -/
def GREEK_WEEKDAYS : List (Nat × List (List Char)) :=
  [(0, ["δευτέρα".toList, "δευτερα".toList, "δευτερά".toList, "δευτερη".toList,
        "δευτερα".toList]),
   (1, ["τρίτη".toList, "τριτη".toList]),
   (2, ["τετάρτη".toList, "τεταρτη".toList]),
   (3, ["πέμπτη".toList, "πεμπτη".toList]),
   (4, ["παρασκευή".toList, "παρασκευη".toList]),
   (5, ["σάββατο".toList, "σαββατο".toList]),
   (6, ["κυριακή".toList, "κυριακη".toList])]

/-- The weekday-variant scan of `find_weekday_days_ahead`
(`re.search(rf'\b{re.escape(v)}\b', text_lower)`, no flags): the first
index whose variant list has a match. -/
def weekdaySearchIdx (scope : List Char) : Option Nat :=
  (GREEK_WEEKDAYS.find? (fun p => p.2.any (fun v => searchO (mWordLit v) scope))).map
    (fun p => p.1)

/-- `(την\s+άλλη|επόμενη)\s+` — no `\b`, no flags. -/
def mNextModifier : Option Char → List Char → Option Nat :=
  fun _ s =>
    if isPrefLit ("την".toList) s then
      let r := runLen isSpc (s.drop 3)
      if 1 ≤ r && isPrefLit ("άλλη".toList) (s.drop (3 + r)) then
        let r2 := runLen isSpc (s.drop (3 + r + 4))
        if 1 ≤ r2 then some (3 + r + 4 + r2) else none
      else if isPrefLit ("επόμενη".toList) s then
        let r3 := runLen isSpc (s.drop 7)
        if 1 ≤ r3 then some (7 + r3) else none
      else none
    else if isPrefLit ("επόμενη".toList) s then
      let r3 := runLen isSpc (s.drop 7)
      if 1 ≤ r3 then some (7 + r3) else none
    else none

/-- `next_weekday_delta`: reads the clock again (`LOCAL_NOW().weekday()`)
and returns the offset to the next occurrence of `target` (never 0).
Returns the advanced clock cursor as well. -/
def next_weekday_delta (clock : Nat → PyDateTime) (k : Nat) (target : Nat) : Nat × Nat :=
  let today := weekdayOf (clock k)
  let d := ((Int.ofNat target - Int.ofNat today) % 7).toNat
  (if d = 0 then 7 else d, k + 1)

/-- `find_weekday_days_ahead`: first matching weekday variant wins; a
"next/other" modifier anywhere in the text adds 7. -/
def find_weekday_days_ahead (clock : Nat → PyDateTime) (k : Nat) (scope : List Char) :
    Option Nat × Nat :=
  match weekdaySearchIdx scope with
  | none => (none, k)
  | some idx =>
    let dk := next_weekday_delta clock k idx
    if searchO mNextModifier scope then (some (dk.1 + 7), dk.2) else (some dk.1, dk.2)

/-- `self.relatives`: the relative-date phrase table (patterns searched
with `re.IGNORECASE`, in list order). -/
def relativesList : List ((Option Char → List Char → Option Nat) × Nat) :=
  [(mWordCI ("σήμερα".toList), 0),
   (mWordCI ("αύριο".toList), 1),
   (mWordCI ("αυριο".toList), 1),
   (mWordCI ("μεθαύριο".toList), 2),
   (mWordCI ("μεθαυριο".toList), 2),
   (mWordCI ("παραμεθαύριο".toList), 3),
   (mWordCI ("παραμεθαυριο".toList), 3),
   (mWordSeqCI ["next".toList, "week".toList], 7),
   (mWordSeqCI ["επόμενη".toList, "εβδομάδα".toList], 7)]

def relativesFind (scope : List Char) : Option Nat :=
  (relativesList.find? (fun p => searchO p.1 scope)).map (fun p => p.2)

/-- `πρω[ίι]` with the surrounding `\b`s (case-insensitive). -/
def mPrwWord : Option Char → List Char → Option Nat :=
  fun prev s =>
    if noWordBefore prev && isPrefCI ("πρω".toList) s &&
        (eqCI (s.getD 3 ' ') 'ί' || eqCI (s.getD 3 ' ') 'ι') &&
        3 < s.length && wordEndsAt s 4 then
      some 4
    else none

/-- `self.part_of_day` after deduplication, in order. -/
def part_of_day : List ((Option Char → List Char → Option Nat) × (Nat × Nat)) :=
  [(mWordCI ("ξημερώματα".toList), (0, 5)),
   (mPrwWord, (6, 11)),
   (mWordCI ("μεσημέρι".toList), (12, 14)),
   (mWordCI ("απόγευμα".toList), (15, 18)),
   (mWordCI ("βράδυ".toList), (19, 22))]

def findPod (text : List Char) : Option (Nat × Nat) :=
  (part_of_day.find? (fun p => searchO p.1 text)).map (fun p => p.2)

/-- `_infer_part_of_day_hour`: midpoint of the first matching range. -/
def infer_part_of_day_hour (text : List Char) : Option Nat :=
  (findPod text).map (fun q => (q.1 + q.2) / 2)

/-! #### Time notations -/

def digitsToNat (l : List Char) : Nat :=
  l.foldl (fun a c => a * 10 + (c.toNat - 48)) 0

/-- Exactly `n` digits at the head of `s`. -/
def takeDigits (s : List Char) (n : Nat) : Option Nat :=
  if (s.take n).length = n && (s.take n).all isDigitC then some (digitsToNat (s.take n))
  else none

def isSep (c : Char) : Bool := c = '/' || c = '-'

/-- The optional year part `(?:[\/\-](\d{4}))?\b` of the explicit-date
pattern at offset `pos`: with-year first (greedy), else the bare `\b`. -/
def euYearOpt (s : List Char) (pos : Nat) : Option (Nat × Option Nat) :=
  if isSep (s.getD pos ' ') && (takeDigits (s.drop (pos + 1)) 4).isSome &&
      wordEndsAt s (pos + 5) then
    some (pos + 5, takeDigits (s.drop (pos + 1)) 4)
  else if wordEndsAt s pos then some (pos, none)
  else none

def euTryM (s : List Char) (dl ml d : Nat) : Option (Nat × (Nat × Nat × Option Nat)) :=
  match takeDigits (s.drop (dl + 1)) ml with
  | none => none
  | some m =>
    match euYearOpt s (dl + 1 + ml) with
    | some (e, y) => some (e, (d, m, y))
    | none => none

def euTryD (s : List Char) (dl : Nat) : Option (Nat × (Nat × Nat × Option Nat)) :=
  match takeDigits s dl with
  | none => none
  | some d =>
    if isSep (s.getD dl ' ') then
      match euTryM s dl 2 d with
      | some r => some r
      | none => euTryM s dl 1 d
    else none

/-- `self.explicit_eu_date`:
`\b(?P<d>\d{1,2})[\/\-](?P<m>\d{1,2})(?:[\/\-](?P<y>\d{4}))?\b`, with
the greedy orders of the engine (`\d{1,2}` prefers two digits, the year
group prefers to be present).  Returns `(length, (d, m, year?))`. -/
def mEuDate : Option Char → List Char → Option (Nat × (Nat × Nat × Option Nat)) :=
  fun prev s =>
    if noWordBefore prev then
      match euTryD s 2 with
      | some r => some r
      | none => euTryD s 1
    else none

def euDateFind (scope : List Char) : Option (Nat × Nat × Option Nat) :=
  (reFind mEuDate none scope).map (fun r => r.2)

/-- The meridiem tail `\s*(am|pm)\b` (or `πμ|μμ`), at offset `pos`;
returns `(end, isPm)`.  The meridiem words start with non-space
characters, so `\s*` is forced to the maximal run. -/
def merTail (am pm : List Char) (s : List Char) (pos h mn : Nat) :
    Option (Nat × (Nat × Nat × Bool)) :=
  let r := runLen isSpc (s.drop pos)
  let q := pos + r
  if isPrefCI am (s.drop q) && wordEndsAt s (q + am.length) then
    some (q + am.length, (h, mn, false))
  else if isPrefCI pm (s.drop q) && wordEndsAt s (q + pm.length) then
    some (q + pm.length, (h, mn, true))
  else none

def t12Try (am pm : List Char) (s : List Char) (hl : Nat) :
    Option (Nat × (Nat × Nat × Bool)) :=
  match takeDigits s hl with
  | none => none
  | some h =>
    let withMin : Option (Nat × (Nat × Nat × Bool)) :=
      if s.getD hl ' ' = ':' then
        match takeDigits (s.drop (hl + 1)) 2 with
        | some mn => merTail am pm s (hl + 3) h mn
        | none => none
      else none
    match withMin with
    | some r => some r
    | none => merTail am pm s hl h 0

/-- `\b(\d{1,2})(?::(\d{2}))?\s*(am|pm)\b` (IGNORECASE); also used for
the Greek `πμ|μμ` form.  Returns `(length, (hour, minute, isPm))`. -/
def mTime12 (am pm : List Char) : Option Char → List Char → Option (Nat × (Nat × Nat × Bool)) :=
  fun prev s =>
    if noWordBefore prev then
      match t12Try am pm s 2 with
      | some r => some r
      | none => t12Try am pm s 1
    else none

/-- The `(\d{1,2})(?::(\d{2}))?\b` tail of the `στις/στη/στο` form at
offset `pos`. -/
def atDigits (s : List Char) (pos hl : Nat) : Option (Nat × (Nat × Nat)) :=
  match takeDigits (s.drop pos) hl with
  | none => none
  | some h =>
    if (s.drop pos).getD hl ' ' = ':' then
      match takeDigits (s.drop (pos + hl + 1)) 2 with
      | some mn =>
        if wordEndsAt s (pos + hl + 3) then some (pos + hl + 3, (h, mn)) else none
      | none => if wordEndsAt s (pos + hl) then some (pos + hl, (h, 0)) else none
    else if wordEndsAt s (pos + hl) then some (pos + hl, (h, 0)) else none

def atTryH (s : List Char) (pos : Nat) : Option (Nat × (Nat × Nat)) :=
  match atDigits s pos 2 with
  | some r => some r
  | none => atDigits s pos 1

/-- `\b(?:στις|στη|στο)\s+(\d{1,2})(?::(\d{2}))?\b` (IGNORECASE).  The
three prefixes are pairwise non-ambiguous at any position. -/
def mTimeAt : Option Char → List Char → Option (Nat × (Nat × Nat)) :=
  fun prev s =>
    if noWordBefore prev then
      let tryWord := fun (w : List Char) =>
        if isPrefCI w s then
          let r := runLen isSpc (s.drop w.length)
          if 1 ≤ r then atTryH s (w.length + r) else none
        else none
      match tryWord ("στις".toList) with
      | some r => some r
      | none =>
        match tryWord ("στη".toList) with
        | some r => some r
        | none => tryWord ("στο".toList)
    else none

/-- The alternation of `self.time_wordy` (no word is a prefix of
another). -/
def timeWordyWords : List (List Char) :=
  ["μία".toList, "μια".toList, "ένα".toList, "ενa".toList, "δύο".toList,
   "δυο".toList, "τρία".toList, "τρεις".toList, "τέσσερα".toList,
   "πέντε".toList, "έξι".toList, "επτά".toList, "εφτά".toList, "οκτώ".toList,
   "εννιά".toList, "δέκα".toList, "έντεκα".toList, "δώδεκα".toList]

/-- The `\s+(?:η\s+)?ώρα\b` tail of `time_wordy` at offset `pos`. -/
def wordyTail (s : List Char) (pos : Nat) : Option Nat :=
  let r := runLen isSpc (s.drop pos)
  if 1 ≤ r then
    let q := pos + r
    let withEta : Option Nat :=
      if eqCI ((s.drop q).getD 0 ' ') 'η' && q < s.length then
        let r2 := runLen isSpc (s.drop (q + 1))
        if 1 ≤ r2 && isPrefCI ("ώρα".toList) (s.drop (q + 1 + r2)) &&
            wordEndsAt s (q + 1 + r2 + 3) then
          some (q + 1 + r2 + 3)
        else none
      else none
    match withEta with
    | some e => some e
    | none =>
      if isPrefCI ("ώρα".toList) (s.drop q) && wordEndsAt s (q + 3) then some (q + 3)
      else none
  else none

/-- `self.time_wordy`: `\b(number-word)\s+(?:η\s+)?ώρα\b` (IGNORECASE).
Returns `(length, captured-number-word)`; the capture is returned in
lowercase form, which is what `greek_word_to_hour` receives after
`.strip().lower()`. -/
def mTimeWordy : Option Char → List Char → Option (Nat × List Char) :=
  fun prev s =>
    if noWordBefore prev then
      timeWordyWords.findSome? (fun w =>
        if isPrefCI w s then (wordyTail s w.length).map (fun e => (e, w)) else none)
    else none

/-- `\b(\d{1,2}):(\d{2})\b`. -/
def t24Try (s : List Char) (hl : Nat) : Option (Nat × (Nat × Nat)) :=
  match takeDigits s hl with
  | none => none
  | some h =>
    if s.getD hl ' ' = ':' then
      match takeDigits (s.drop (hl + 1)) 2 with
      | some mn => if wordEndsAt s (hl + 3) then some (hl + 3, (h, mn)) else none
      | none => none
    else none

def mTime24 : Option Char → List Char → Option (Nat × (Nat × Nat)) :=
  fun prev s =>
    if noWordBefore prev then
      match t24Try s 2 with
      | some r => some r
      | none => t24Try s 1
    else none

/-- `GREEK_NUMBER_WORDS_1_12` after the integers-only filter (duplicate
keys of the source literal collapse; the `None`-valued key is dropped). -/
def GREEK_NUMBER_WORDS : List (List Char × Nat) :=
  [("ένα".toList, 1), ("ενa".toList, 1), ("μια".toList, 1), ("μία".toList, 1),
   ("ενός".toList, 1),
   ("δύο".toList, 2), ("δυο".toList, 2),
   ("τρία".toList, 3), ("τρεις".toList, 3), ("τρια".toList, 3),
   ("τέσσερα".toList, 4), ("τεσσερα".toList, 4),
   ("πέντε".toList, 5), ("πεντε".toList, 5),
   ("έξι".toList, 6), ("εξι".toList, 6),
   ("επτά".toList, 7), ("εφτά".toList, 7), ("εφτα".toList, 7), ("επτα".toList, 7),
   ("οκτώ".toList, 8), ("οκτω".toList, 8),
   ("εννιά".toList, 9), ("εννια".toList, 9),
   ("δέκα".toList, 10), ("δεκα".toList, 10),
   ("έντεκα".toList, 11), ("εντεκα".toList, 11),
   ("δώδεκα".toList, 12), ("δωδεκα".toList, 12)]

/-- `greek_word_to_hour(w)` = `dict.get(w.strip().lower())`. -/
def greek_word_to_hour (w : List Char) : Option Nat :=
  (GREEK_NUMBER_WORDS.find? (fun p => p.1 = (pyStrip w).map pyLowerChar)).map
    (fun p => p.2)

/-- `clamp_time`. -/
def clamp_time (hour minute : Nat) : Option (Nat × Nat) :=
  if hour ≤ 23 && minute ≤ 59 then some (hour, minute) else none

/-- `_apply_part_of_day_heuristic(text, h)`: only for ambiguous
1–12 hours; the first part-of-day word decides (evening ranges shift the
hour by 12). -/
def apply_part_of_day_heuristic (text : List Char) (h : Nat) : Option Nat :=
  if 1 ≤ h && h ≤ 12 then
    match findPod text with
    | some q => some (if 12 ≤ q.1 && h < 12 then h + 12 else h)
    | none => none
  else none

/-- `_extract_time`: the five notations in source order; each branch
that fires returns its (clamped) result without falling through —
except the wordy branch when the number word is unknown, which falls to
the 24-hour pattern exactly as in the source. -/
def extract_time (text : List Char) : Option (Nat × Nat) :=
  let t24res : Option (Nat × Nat) :=
    match reFind mTime24 none text with
    | some (_, h, mn) => clamp_time h mn
    | none => none
  match reFind (mTime12 ("am".toList) ("pm".toList)) none text with
  | some (_, h, mn, pm) =>
    let h2 := if h = 12 && !pm then 0 else if pm && h ≠ 12 then h + 12 else h
    clamp_time h2 mn
  | none =>
  match reFind (mTime12 ("πμ".toList) ("μμ".toList)) none text with
  | some (_, h, mn, pm) =>
    let h2 := if !pm then (if h = 12 then 0 else h) else (if h ≠ 12 then h + 12 else h)
    clamp_time h2 mn
  | none =>
  match reFind mTimeAt none text with
  | some (_, h, mn) =>
    (match apply_part_of_day_heuristic text h with
     | some adj => clamp_time adj mn
     | none => clamp_time h mn)
  | none =>
  match reFind mTimeWordy none text with
  | some (_, w) =>
    (match greek_word_to_hour w with
     | some h =>
       (match apply_part_of_day_heuristic text h with
        | some adj => clamp_time adj 0
        | none => clamp_time h 0)
     | none => t24res)
  | none => t24res

/-- The scope search of the start-date case:
`re.search(r'\b(?:from|από)\b(.*)$', text_lower)`, whose group 1 is the
suffix after the marker word. -/
def mFromMarker : Option Char → List Char → Option (List Char) :=
  fun prev s =>
    if noWordBefore prev then
      if isPrefLit ("from".toList) s && wordEndsAt s 4 then some (s.drop 4)
      else if isPrefLit ("από".toList) s && wordEndsAt s 3 then some (s.drop 3)
      else none
    else none

def fromMarkerScope (text : List Char) : Option (List Char) :=
  reFind mFromMarker none text

/-- `LocalNLPProcessor._extract_datetime_iso`, with the clock stream
made explicit: returns the extracted timestamp (standing for the ISO
string) and the advanced clock cursor.  `now` is read once at entry;
`find_weekday_days_ahead` reads the clock again via
`next_weekday_delta`. -/
def extract_datetime_iso (clock : Nat → PyDateTime) (k : Nat)
    (text_lower : List Char) (start_keywords : Bool) : Option PyDateTime × Nat :=
  let now := clock k
  let k1 := k + 1
  match (if start_keywords then fromMarkerScope text_lower else some text_lower) with
  | none => (none, k1)
  | some scope =>
    let dk : Option Nat × Nat :=
      match relativesFind scope with
      | some d => (some d, k1)
      | none => find_weekday_days_ahead clock k1 scope
    let base_dt : Option PyDateTime :=
      match dk.1 with
      | some d => some (addDays now d)
      | none =>
        match euDateFind scope with
        | some (d, m, yo) => mkDatetime (yo.elim (yearOf now) Int.ofNat) m d now
        | none => none
    let extracted_time := extract_time scope
    let base2 : Option PyDateTime :=
      match base_dt, extracted_time with
      | none, some _ => some now
      | b, _ => b
    match base2 with
    | none => (none, dk.2)
    | some b =>
      match extracted_time with
      | some (h, mn) => (some (setHMS b h mn), dk.2)
      | none =>
        match infer_part_of_day_hour scope with
        | some ph => (some (setHMS b ph 0), dk.2)
        | none => (some b, dk.2)

/-- The resolver under a constant clock (the Python behavior whenever
the wall clock does not tick during the call). -/
def extractDatetime (now : PyDateTime) (text_lower : List Char)
    (start_keywords : Bool) : Option PyDateTime :=
  (extract_datetime_iso (fun _ => now) 0 text_lower start_keywords).1

/-! ### F. Intent classifier (`LocalNLPProcessor._detect_intent`) -/

inductive Intent where
  | create_task
  | update_task
  | unknown
deriving DecidableEq

/-- `\bw\s+(?:a\s+)?task\b` (IGNORECASE): the optional `a\s+` is tried
greedily, with fallback to the bare `task`. -/
def mEngCreate (w : List Char) : Option Char → List Char → Bool :=
  fun prev s =>
    noWordBefore prev && isPrefCI w s &&
      (let r := runLen isSpc (s.drop w.length)
       1 ≤ r &&
         (let q := w.length + r
          (eqCI (s.getD q ' ') 'a' &&
            (let r2 := runLen isSpc (s.drop (q + 1))
             1 ≤ r2 && isPrefCI ("task".toList) (s.drop (q + 1 + r2)) &&
               wordEndsAt s (q + 1 + r2 + 4))) ||
          (isPrefCI ("task".toList) (s.drop q) && wordEndsAt s (q + 4))))

/-- The tail `\s*(?:εργασία)?\b` of the Greek creation patterns, entered
just after the verb (or after `μία`/`μια`).  `first` records whether the
character to the left is still the last (word) character of that word;
after consuming a space it no longer is, and `\b` then needs a word
character on the right. -/
def greekCreateTail : Bool → List Char → Bool
  | first, [] => first
  | first, c :: r =>
    (isPrefCI ("εργασία".toList) (c :: r) && wordEndsAt (c :: r) 7) ||
    (if first then !isWordChar c else isWordChar c) ||
    (isSpc c && greekCreateTail false r)

/-- `\bVERB(?:\s+(?:μία|μια))?\s*(?:εργασία)?\b` (IGNORECASE). -/
def mGreekCreate (verb : List Char) : Option Char → List Char → Bool :=
  fun prev s =>
    noWordBefore prev && isPrefCI verb s &&
      (let u := s.drop verb.length
       (let r := runLen isSpc u
        1 ≤ r &&
          ((isPrefCI ("μία".toList) (u.drop r) && greekCreateTail true (u.drop (r + 3))) ||
           (isPrefCI ("μια".toList) (u.drop r) && greekCreateTail true (u.drop (r + 3))))) ||
       greekCreateTail true u)

/-- A plain `\bw₁\s+…\s+wₙ\b` search pattern as a Boolean matcher. -/
def mSeqB (ws : List (List Char)) : Option Char → List Char → Bool :=
  fun prev s => (mWordSeqCI ws prev s).isSome

/-- `\bw\s+/\d+\b` (IGNORECASE). -/
def mVerbSlash (w : List Char) : Option Char → List Char → Bool :=
  fun prev s =>
    noWordBefore prev && isPrefCI w s &&
      (let r := runLen isSpc (s.drop w.length)
       1 ≤ r &&
         (let q := w.length + r
          s.getD q ' ' = '/' &&
            (let d := runLen isDigitC (s.drop (q + 1))
             1 ≤ d && wordEndsAt s (q + 1 + d))))

/-- `\bbase[c₁c₂]\s+w2\b` (IGNORECASE), e.g. `\bδιόρθωσ[εη]\s+εργασία\b`. -/
def mWordCCPair (base : List Char) (alts : List Char) (w2 : List Char) :
    Option Char → List Char → Bool :=
  fun prev s =>
    noWordBefore prev && isPrefCI base s &&
      alts.any (fun a => eqCI (s.getD base.length ' ') a) && base.length < s.length &&
      (let r := runLen isSpc (s.drop (base.length + 1))
       1 ≤ r && isPrefCI w2 (s.drop (base.length + 1 + r)) &&
         wordEndsAt s (base.length + 1 + r + w2.length))

/-- `\bενημέρωσε\s+την?\s+εργασία\b` (IGNORECASE): the optional `ν` is
tried greedily. -/
def mEnimerose : Option Char → List Char → Bool :=
  fun prev s =>
    noWordBefore prev && isPrefCI ("ενημέρωσε".toList) s &&
      (let r := runLen isSpc (s.drop 9)
       1 ≤ r &&
         (let q := 9 + r
          isPrefCI ("τη".toList) (s.drop q) &&
            ((eqCI (s.getD (q + 2) ' ') 'ν' &&
               (let r2 := runLen isSpc (s.drop (q + 3))
                1 ≤ r2 && isPrefCI ("εργασία".toList) (s.drop (q + 3 + r2)) &&
                  wordEndsAt s (q + 3 + r2 + 7))) ||
             (let r2 := runLen isSpc (s.drop (q + 2))
              1 ≤ r2 && isPrefCI ("εργασία".toList) (s.drop (q + 2 + r2)) &&
                wordEndsAt s (q + 2 + r2 + 7)))))

/-- `self.create_patterns`, in order. -/
def create_patterns : List (Option Char → List Char → Bool) :=
  [mEngCreate ("create".toList),
   mEngCreate ("add".toList),
   mSeqB ["new".toList, "task".toList],
   mEngCreate ("make".toList),
   mEngCreate ("schedule".toList),
   mGreekCreate ("δημιούργησε".toList),
   mGreekCreate ("φτιάξε".toList),
   mGreekCreate ("πρόσθεσε".toList),
   mGreekCreate ("καταχώρισε".toList),
   mGreekCreate ("προγραμμάτισε".toList),
   mSeqB ["νέα".toList, "εργασία".toList],
   mSeqB ["γράψε".toList, "εργασία".toList]]

/-- `self.update_patterns`, in order. -/
def update_patterns : List (Option Char → List Char → Bool) :=
  [mSeqB ["update".toList, "task".toList],
   mSeqB ["modify".toList, "task".toList],
   mSeqB ["change".toList, "task".toList],
   mSeqB ["edit".toList, "task".toList],
   mVerbSlash ("update".toList),
   mVerbSlash ("modify".toList),
   mVerbSlash ("change".toList),
   mVerbSlash ("edit".toList),
   mSeqB ["ενημέρωση".toList, "εργασίας".toList],
   mSeqB ["τροποποίηση".toList, "εργασίας".toList],
   mSeqB ["αλλαγή".toList, "εργασίας".toList],
   mSeqB ["επεξεργασία".toList, "εργασίας".toList],
   mWordCCPair ("διόρθωσ".toList) ['ε', 'η'] ("εργασία".toList),
   mWordCCPair ("άλλαξ".toList) ['ε', 'η'] ("εργασία".toList),
   mEnimerose]

/-- `re.search(r'task=\{([^}]+)\}', text)`: the leftmost structured task
payload. -/
def mTaskPayload : Option Char → List Char → Option (List Char) :=
  fun _ s =>
    if isPrefLit ("task=".toList ++ [lbrace]) s then
      let v := s.drop 6
      let p := runLen (fun c => c ≠ rbrace) v
      if 0 < p && (v.drop p) ≠ [] then some (v.take p) else none
    else none

def firstTaskPayload (text : List Char) : Option (List Char) :=
  reFind mTaskPayload none text

/-- `re.match(r'^[0-9a-fA-F]{24}$', id)`. -/
def isHex24 (p : List Char) : Bool :=
  p.length = 24 &&
    p.all (fun c => isDigitC c || ('a' ≤ c && c ≤ 'f') || ('A' ≤ c && c ≤ 'F'))

/-- `\b(title|τίτλος|name|όνομα)\b` (IGNORECASE). -/
def fieldTokenM : Option Char → List Char → Option Nat :=
  mWordAltCI [["title".toList], ["τίτλος".toList], ["name".toList], ["όνομα".toList]]

/-- `\b(change|edit|modify|update|alter|ενημέρωσε|άλλαξε|τροποποίησε)\b`
(IGNORECASE). -/
def verbTokenM : Option Char → List Char → Option Nat :=
  mWordAltCI [["change".toList], ["edit".toList], ["modify".toList],
    ["update".toList], ["alter".toList], ["ενημέρωσε".toList],
    ["άλλαξε".toList], ["τροποποίησε".toList]]

/-- `(δημιούργησε|φτιάξε|πρόσθεσε|καταχώρισε|προγραμμάτισε)\b` — note:
no leading `\b` and no IGNORECASE in the source. -/
def mGreekVerbEnd : Option Char → List Char → Option Nat :=
  fun _ s =>
    [("δημιούργησε".toList), ("φτιάξε".toList), ("πρόσθεσε".toList),
     ("καταχώρισε".toList), ("προγραμμάτισε".toList)].findSome?
      (fun w => if isPrefLit w s && wordEndsAt s w.length then some w.length else none)

/-- The rules of `_detect_intent` below the structured-payload check. -/
def detectIntentTail (text : List Char) : Intent :=
  if create_patterns.any (fun m => reSearch m text) then .create_task
  else if update_patterns.any (fun m => reSearch m text) then .update_task
  else if searchO (mWordLit ("task".toList)) text &&
      (containsSub ("for".toList) text || containsSub ("in".toList) text ||
       containsSub ("with".toList) text || containsSub ("about".toList) text) then
    .create_task
  else if searchO mGreekVerbEnd text then .create_task
  else .unknown

/-- `LocalNLPProcessor._detect_intent`: a structured task payload whose
value is a 24-hex MongoDB id, combined with any update phrase, field
token, or update verb, wins immediately; otherwise the ordered pattern
rules apply. -/
def detect_intent (text : List Char) : Intent :=
  match firstTaskPayload text with
  | some p =>
    if isHex24 p then
      if update_patterns.any (fun m => reSearch m text) then .update_task
      else if (fieldTokenM |> fun m => searchO m text) then .update_task
      else if (verbTokenM |> fun m => searchO m text) then .update_task
      else detectIntentTail text
    else detectIntentTail text
  | none => detectIntentTail text

/-! ### G. Title resolver (`LocalNLPProcessor._extract_title`) -/

def isOpenQ (c : Char) : Bool := c = dquote || c = '“' || c = squote || c = '‘'

def isCloseQ (c : Char) : Bool := c = dquote || c = '”' || c = squote || c = '’'

/-- `["“'‘]([^"”'’]+)["”'’]`: the greedy content run stops at the first
closing-class character, which must exist. -/
def mQuote : Option Char → List Char → Option (List Char) :=
  fun _ s =>
    match s with
    | [] => none
    | c :: v =>
      if isOpenQ c then
        let p := runLen (fun d => !isCloseQ d) v
        if 0 < p && (v.drop p) ≠ [] then some (v.take p) else none
      else none

def quoteFind (text : List Char) : Option (List Char) := reFind mQuote none text

/-- The terminator `(?:\s+(?:stop₁|…|stopₙ|$)|$)` of the title-capture
patterns.  Stop words begin with non-space characters, so only the
maximal whitespace run can precede one. -/
def termStops (stops : List (List Char)) (v : List Char) : Bool :=
  v.isEmpty ||
    (let r := runLen isSpc v
     1 ≤ r && ((v.drop r).isEmpty || stops.any (fun w => isPrefCI w (v.drop r))))

/-- The terminator of the `(.+?)$` patterns. -/
def termEnd (v : List Char) : Bool := v.isEmpty

/-- Lazy capture `(.+?)` up to the first position where `term` holds
(at least one character; `term` always holds at the end of the text for
both terminators used). -/
def lazyCapAux (term : List Char → Bool) (acc : List Char) : List Char → List Char
  | [] => acc
  | c :: r => if term (c :: r) then acc else lazyCapAux term (acc ++ [c]) r

def capFrom (term : List Char → Bool) : List Char → Option (List Char)
  | [] => none
  | c :: r => some (lazyCapAux term [c] r)

/-- `\s{minSp,}` then a lazy capture: the whitespace run is taken
greedily; when nothing follows it, the engine backtracks one space so
that the capture can hold that single space. -/
def capAfterSpaces (term : List Char → Bool) (minSp : Nat) (w : List Char) :
    Option (List Char) :=
  let r := runLen isSpc w
  if r < minSp then none
  else
    let u := w.drop r
    if u.isEmpty then (if minSp + 1 ≤ r then some [' '] else none)
    else capFrom term u

/-- The bilingual stop-word lookahead of the title patterns (IGNORECASE
applies). -/
def titleStops : List (List Char) := stopsHash

/-- `with\s+title\s+(.+?)TERM` (patterns 1 and 4 share this prefix). -/
def mTitleWith (term : List Char → Bool) : Option Char → List Char → Option (List Char) :=
  fun _ s =>
    if isPrefCI ("with".toList) s then
      let r1 := runLen isSpc (s.drop 4)
      if 1 ≤ r1 && isPrefCI ("title".toList) (s.drop (4 + r1)) then
        capAfterSpaces term 1 (s.drop (4 + r1 + 5))
      else none
    else none

/-- `title\s+is\s+(.+?)TERM` (patterns 2 and 5). -/
def mTitleIs (term : List Char → Bool) : Option Char → List Char → Option (List Char) :=
  fun _ s =>
    if isPrefCI ("title".toList) s then
      let r1 := runLen isSpc (s.drop 5)
      if 1 ≤ r1 && isPrefCI ("is".toList) (s.drop (5 + r1)) then
        capAfterSpaces term 1 (s.drop (5 + r1 + 2))
      else none
    else none

/-- `title\s*:\s*(.+?)TERM` (pattern 3). -/
def mTitleColon : Option Char → List Char → Option (List Char) :=
  fun _ s =>
    if isPrefCI ("title".toList) s then
      let r1 := runLen isSpc (s.drop 5)
      if s.getD (5 + r1) ' ' = ':' then
        capAfterSpaces (termStops titleStops) 0 (s.drop (5 + r1 + 1))
      else none
    else none

/-- `\btitle\s+(.+?)TERM` (patterns 6 and 7 carry the leading `\b`). -/
def mTitleBare (term : List Char → Bool) : Option Char → List Char → Option (List Char) :=
  fun prev s =>
    if noWordBefore prev && isPrefCI ("title".toList) s then
      capAfterSpaces term 1 (s.drop 5)
    else none

/-- `self.title_patterns`, in order. -/
def title_patterns : List (Option Char → List Char → Option (List Char)) :=
  [mTitleWith (termStops titleStops),
   mTitleIs (termStops titleStops),
   mTitleColon,
   mTitleWith termEnd,
   mTitleIs termEnd,
   mTitleBare termEnd,
   mTitleBare (termStops titleStops)]

/-- `re.sub(r'\s+', ' ', s)`. -/
def collapseWS (s : List Char) : List Char :=
  reSub (fun _ u => let r := runLen isSpc u; if 0 < r then some r else none) s

/-- The pattern loop of `_extract_title` step 2: first pattern whose
cleaned capture is longer than two characters wins; shorter captures
fall through to the next pattern. -/
def titleLoop : List (Option Char → List Char → Option (List Char)) → List Char →
    Option (List Char)
  | [], _ => none
  | p :: ps, text =>
    match reFind p none text with
    | some cap =>
      let t := pyStrip (collapseWS (pyStrip cap))
      if 2 < t.length then some t else titleLoop ps text
    | none => titleLoop ps text

/-- The flattened weekday-variant alternation of `_strip_dates_times`. -/
def wdWordsAlt : List (List (List Char)) :=
  (GREEK_WEEKDAYS.map (fun p => p.2)).flatten.map (fun w => [w])

/-- The relative-date-word alternation of `_strip_dates_times`
(this one does contain the English words). -/
def relWordsAlt : List (List (List Char)) :=
  [["σήμερα".toList], ["αύριο".toList], ["αυριο".toList], ["μεθαύριο".toList],
   ["μεθαυριο".toList], ["παραμεθαύριο".toList], ["παραμεθαυριο".toList],
   ["today".toList], ["tomorrow".toList],
   ["next".toList, "week".toList], ["επόμενη".toList, "εβδομάδα".toList]]

/-- `\b(?:η\s+)?ώρα\b` (IGNORECASE). -/
def mOra : Option Char → List Char → Option Nat :=
  fun prev s =>
    if noWordBefore prev then
      let withEta : Option Nat :=
        match s with
        | [] => none
        | c :: _ =>
          if eqCI c 'η' then
            let r := runLen isSpc (s.drop 1)
            if 1 ≤ r && isPrefCI ("ώρα".toList) (s.drop (1 + r)) &&
                wordEndsAt s (1 + r + 3) then
              some (1 + r + 3)
            else none
          else none
      match withEta with
      | some e => some e
      | none =>
        if isPrefCI ("ώρα".toList) s && wordEndsAt s 3 then some 3 else none
    else none

/-- `LocalNLPProcessor._strip_dates_times`, with the source's
substitution order: part-of-day words, weekday names, explicit dates,
the five time notations plus the relative-date words, the bare
"o'clock" suffix, then whitespace normalization. -/
def strip_dates_times (s0 : List Char) : List Char :=
  let s1 := part_of_day.foldl (fun acc p => reSub p.1 acc) s0
  let s2 := reSub (mWordAltCI wdWordsAlt) s1
  let s3 := reSub (fun prev u => (mEuDate prev u).map (fun r => r.1)) s2
  let s4 := reSub (fun prev u => (mTime24 prev u).map (fun r => r.1)) s3
  let s5 := reSub (fun prev u => (mTime12 ("am".toList) ("pm".toList) prev u).map (fun r => r.1)) s4
  let s6 := reSub (fun prev u => (mTime12 ("πμ".toList) ("μμ".toList) prev u).map (fun r => r.1)) s5
  let s7 := reSub (fun prev u => (mTimeAt prev u).map (fun r => r.1)) s6
  let s8 := reSub (fun prev u => (mTimeWordy prev u).map (fun r => r.1)) s7
  let s9 := reSub (mWordAltCI relWordsAlt) s8
  let s10 := reSub mOra s9
  pyStrip (collapseWS s10)

/-- The stop-word alternation of `_extract_title` step 5, in source
order. -/
def titleStopWords : List (List (List Char)) :=
  [["create".toList], ["add".toList], ["new".toList], ["make".toList],
   ["schedule".toList], ["task".toList], ["title".toList], ["for".toList],
   ["in".toList], ["with".toList], ["about".toList], ["due".toList],
   ["at".toList], ["on".toList], ["from".toList], ["by".toList], ["a".toList],
   ["an".toList], ["the".toList], ["δημιούργησε".toList], ["πρόσθεσε".toList],
   ["νέα".toList], ["κάνε".toList], ["προγραμμάτισε".toList], ["φτιάξε".toList],
   ["εργασία".toList], ["για".toList], ["σε".toList], ["με".toList],
   ["μέχρι".toList], ["στις".toList], ["στη".toList], ["στο".toList],
   ["έως".toList], ["ως".toList], ["από".toList], ["τίτλος".toList],
   ["καταχώρισε".toList]]

def goodTypes : List (List Char) :=
  ["work_order".toList, "project".toList, "client".toList]

/-- `LocalNLPProcessor._extract_title`. -/
def extract_title (text : List Char) (entities : List EntityMatch) : List Char :=
  match quoteFind text with
  | some cap => pyStrip cap
  | none =>
    match titleLoop title_patterns text with
    | some t => t
    | none =>
      let clean0 := exciseAll text (sortByStartDesc entities)
      let clean1 := strip_dates_times clean0
      let clean2 := reSub (mWordAltCI titleStopWords) clean1
      let clean := pyStrip (collapseWS clean2)
      if 2 < clean.length && !(clean.all isDigitC) then
        joinSpace ((splitWS clean).take 6)
      else
        match entities.find? (fun e =>
            goodTypes.contains e.type && 2 < e.value.length) with
        | some e => e.value
        | none => "New Task".toList

/-! ### H. Priority, description, estimated hours, confidence -/

inductive Priority where
  | low
  | medium
  | high
  | urgent
deriving DecidableEq

/-- `\bbase[c₁c₂]\b` (IGNORECASE), e.g. `\bσημαντικ[όη]\b`. -/
def mWordCC (base : List Char) (alts : List Char) : Option Char → List Char → Bool :=
  fun prev s =>
    noWordBefore prev && isPrefCI base s && base.length < s.length &&
      alts.any (fun a => eqCI (s.getD base.length ' ') a) &&
      wordEndsAt s (base.length + 1)

def urgent_patterns : List (Option Char → List Char → Bool) :=
  [mSeqB ["urgent".toList], mSeqB ["asap".toList], mSeqB ["immediately".toList],
   mSeqB ["critical".toList], mSeqB ["επείγον".toList], mSeqB ["άμεσα".toList],
   mSeqB ["κρίσιμο".toList], mSeqB ["επειγόντως".toList]]

def high_patterns : List (Option Char → List Char → Bool) :=
  [mSeqB ["high".toList, "priority".toList], mSeqB ["important".toList],
   mSeqB ["high".toList], mSeqB ["υψηλή".toList, "προτεραιότητα".toList],
   mWordCC ("σημαντικ".toList) ['ό', 'η'], mWordCC ("υψηλ".toList) ['ό', 'ή']]

def medium_patterns : List (Option Char → List Char → Bool) :=
  [mSeqB ["medium".toList, "priority".toList], mSeqB ["normal".toList],
   mSeqB ["medium".toList], mSeqB ["μεσαία".toList, "προτεραιότητα".toList],
   mWordCC ("κανονικ".toList) ['ό', 'ή'], mWordCC ("μεσαί".toList) ['ο', 'α']]

def low_patterns : List (Option Char → List Char → Bool) :=
  [mSeqB ["low".toList, "priority".toList], mSeqB ["low".toList],
   mSeqB ["when".toList, "possible".toList],
   mSeqB ["χαμηλή".toList, "προτεραιότητα".toList],
   mWordCC ("χαμηλ".toList) ['ό', 'ή'],
   mSeqB ["όταν".toList, "είναι".toList, "δυνατό".toList]]

/-- `LocalNLPProcessor._extract_priority`: levels checked from urgent
down; default medium. -/
def extract_priority (text : List Char) : Priority :=
  if urgent_patterns.any (fun m => reSearch m text) then .urgent
  else if high_patterns.any (fun m => reSearch m text) then .high
  else if medium_patterns.any (fun m => reSearch m text) then .medium
  else if low_patterns.any (fun m => reSearch m text) then .low
  else .medium

/-- The label alternation of `_extract_description`
(`description|details?|notes?|περιγραφή|σημειώσεις?`), flattened in
greedy order. -/
def descrLabels : List (List Char) :=
  ["description".toList, "details".toList, "detail".toList, "notes".toList,
   "note".toList, "περιγραφή".toList, "σημειώσεις".toList, "σημειώσει".toList]

/-- `(?:label):\s*["“'‘]?([^"”'’]+)` at one position (IGNORECASE). -/
def mDescr : Option Char → List Char → Option (List Char) :=
  fun _ s =>
    descrLabels.findSome? (fun w =>
      if isPrefCI w s && s.getD w.length ' ' = ':' then
        let r := runLen isSpc (s.drop (w.length + 1))
        let v := s.drop (w.length + 1 + r)
        let withQ : Option (List Char) :=
          match v with
          | [] => none
          | c :: v2 =>
            if isOpenQ c then
              let p := runLen (fun d => !isCloseQ d) v2
              if 0 < p then some (v2.take p) else none
            else none
        match withQ with
        | some cap => some cap
        | none =>
          let p := runLen (fun d => !isCloseQ d) v
          if 0 < p then some (v.take p) else none
      else none)

/-- `LocalNLPProcessor._extract_description`. -/
def extract_description (text : List Char) : Option (List Char) :=
  (reFind mDescr none text).map pyStrip

/-- The unit alternation of `_extract_hours`
(`hours?|hrs?|h|ώρες?|ω`), flattened in greedy order. -/
def hourUnits : List (List Char) :=
  ["hours".toList, "hour".toList, "hrs".toList, "hr".toList, "h".toList,
   "ώρες".toList, "ώρε".toList, "ω".toList]

/-- `(\d+(?:\.\d+)?)\s*(?:hours?|hrs?|h|ώρες?|ω)\b` (IGNORECASE); the
numeric value as an exact rational (Python parses a float). -/
def mHours : Option Char → List Char → Option ℚ :=
  fun _ s =>
    let d := runLen isDigitC s
    if 0 < d then
      let whole : ℚ := digitsToNat (s.take d)
      let fracLen : Nat :=
        if s.getD d ' ' = '.' then
          let f := runLen isDigitC (s.drop (d + 1))
          if 0 < f then f else 0
        else 0
      let value : ℚ :=
        if 0 < fracLen then
          whole + (digitsToNat ((s.drop (d + 1)).take fracLen) : ℚ) / ((10 : ℚ) ^ fracLen)
        else whole
      let pos := if 0 < fracLen then d + 1 + fracLen else d
      let r := runLen isSpc (s.drop pos)
      if (hourUnits.any (fun w =>
            isPrefCI w (s.drop (pos + r)) && wordEndsAt s (pos + r + w.length))) then
        some value
      else none
    else none

/-- `LocalNLPProcessor._extract_hours`. -/
def extract_hours (text : List Char) : Option ℚ :=
  reFind mHours none text

/-- `re.search(r'\btask\b', text) or re.search(r'\bεργασία\b', text)`. -/
def taskWordSearch (text : List Char) : Bool :=
  searchO (mWordLit ("task".toList)) text || searchO (mWordLit ("εργασία".toList)) text

/-- The action-verb group of `_calculate_confidence` — a plain substring
alternation (no `\b`, no IGNORECASE). -/
def actionVerbSearch (text : List Char) : Bool :=
  [("create".toList), ("add".toList), ("make".toList), ("schedule".toList),
   ("update".toList), ("modify".toList), ("δημιούργησε".toList),
   ("πρόσθεσε".toList), ("φτιάξε".toList), ("προγραμμάτισε".toList),
   ("ενημέρωσε".toList)].any (fun w => containsSub w text)

/-- Python's builtin `min` on two numbers. -/
def pymin (a b : ℚ) : ℚ := if a ≤ b then a else b

/-- `LocalNLPProcessor._calculate_confidence` (floats modeled as exact
rationals). -/
def calculate_confidence (text : List Char) (intent : Intent)
    (entities : List EntityMatch) : ℚ :=
  let c1 : ℚ := if intent ≠ Intent.unknown then 45 / 100 else 0
  let c2 : ℚ := pymin (35 / 100) ((entities.length : ℚ) * (12 / 100))
  let c3 : ℚ := if taskWordSearch text then 12 / 100 else 0
  let c4 : ℚ := if actionVerbSearch text then 8 / 100 else 0
  pymin 1 (c1 + c2 + c3 + c4)

/-- Transcription of the SPEC's wording for the confidence score (for the
refinement comparison): "min(1.0, s) where s is the sum of: 0.45 if intent
is not unknown, min(0.35, 0.12 × entity_count), 0.12 if the literal word
'task' or 'εργασία' appears, and 0.08 if any creation/update action verb
(bilingual) appears". -/
def confidence_spec (text : List Char) (intent : Intent)
    (entities : List EntityMatch) : ℚ :=
  pymin 1
    ((if intent = Intent.unknown then 0 else 45 / 100) +
      pymin (35 / 100) ((12 / 100) * (entities.length : ℚ)) +
      (if taskWordSearch text then 12 / 100 else 0) +
      (if actionVerbSearch text then 8 / 100 else 0))

/-! ### I. The pipeline (`LocalNLPProcessor.process`) -/

structure TaskOperation where
  intent : Intent
  title : List Char
  description : Option (List Char)
  priority : Priority
  assignees : List (List Char)
  work_order : Option (List Char)
  project : Option (List Char)
  client : Option (List Char)
  due_date : Option PyDateTime
  start_date : Option PyDateTime
  estimated_hours : Option ℚ
  entities : List EntityMatch
  confidence : ℚ
deriving DecidableEq

def extract_assignees (entities : List EntityMatch) : List (List Char) :=
  (entities.filter (fun e => e.type = ("personnel".toList))).map (fun e => e.value)

def firstOfType (ty : List Char) (entities : List EntityMatch) : Option (List Char) :=
  ((entities.filter (fun e => e.type = ty)).map (fun e => e.value)).head?

/-- `LocalNLPProcessor.process`, with the clock stream explicit: the
due-date extraction reads the clock first, then the start-date
extraction continues from the advanced cursor. -/
def process (clock : Nat → PyDateTime) (text : List Char) : TaskOperation :=
  let text_lower := pyStrip (text.map pyLowerChar)
  let intent := detect_intent text_lower
  let entities := extract_entities text
  let title := extract_title text entities
  let description := extract_description text
  let priority := extract_priority text_lower
  let assignees := extract_assignees entities
  let work_order := firstOfType ("work_order".toList) entities
  let project := firstOfType ("project".toList) entities
  let client := firstOfType ("client".toList) entities
  let dueK := extract_datetime_iso clock 0 text_lower false
  let startK := extract_datetime_iso clock dueK.2 text_lower true
  let estimated_hours := extract_hours text_lower
  let confidence := calculate_confidence text_lower intent entities
  ⟨intent, title, description, priority, assignees, work_order, project, client,
   dueK.1, startK.1, estimated_hours, entities, confidence⟩

/-- The pipeline under a constant clock. -/
def processPure (now : PyDateTime) (text : List Char) : TaskOperation :=
  process (fun _ => now) text

/-- The pipeline's due-date field alone, clock stream explicit
(used to state the clock-consistency claim). -/
def processDueDate (clock : Nat → PyDateTime) (text : List Char) : Option PyDateTime :=
  (extract_datetime_iso clock 0 (pyStrip (text.map pyLowerChar)) false).1

/-! ### D. Lemmas about the entity extractor -/

theorem getD_drop (l : List Char) (n i : Nat) (d : Char) :
    (l.drop n).getD i d = l.getD (n + i) d := by
  induction n generalizing l with
  | zero => simp
  | succ n ih =>
    cases l with
    | nil => simp
    | cons c r =>
      have h : n + 1 + i = (n + i) + 1 := by omega
      simp only [List.drop_succ_cons, h, List.getD_cons_succ]
      exact ih r

theorem runLen_le (p : Char → Bool) (l : List Char) : runLen p l ≤ l.length := by
  induction l with
  | nil => simp [runLen]
  | cons c r ih =>
    simp only [runLen, List.length_cons]
    cases p c
    · simp
    · simp; omega

theorem runLen_mem (p : Char → Bool) (l : List Char) (d : Char) :
    ∀ j < runLen p l, p (l.getD j d) = true := by
  induction l with
  | nil => simp [runLen]
  | cons c r ih =>
    intro j hj
    simp only [runLen] at hj
    cases hp : p c with
    | false => simp [hp] at hj
    | true =>
      rw [hp, if_pos rfl] at hj
      cases j with
      | zero => simpa [List.getD] using hp
      | succ j => simp only [List.getD_cons_succ]; exact ih j (by omega)

theorem trimRight_headI (l : List Char) (h : trimRight l ≠ []) :
    (trimRight l).headI = l.headI := by
  cases l with
  | nil => simp [trimRight] at h
  | cons c r =>
    simp only [trimRight]
    rcases ht : trimRight r with _ | ⟨x, xs⟩
    · simp only [trimRight, ht] at h ⊢
      cases hc : isSpc c
      · simp
      · simp [hc] at h
    · simp

theorem trimRight_ne_nil (c : Char) (r : List Char) (h : isSpc c = false) :
    trimRight (c :: r) ≠ [] := by
  simp only [trimRight]
  rcases trimRight r with _ | ⟨x, xs⟩
  · simp [h]
  · simp

theorem dropWhile_headI (p : Char → Bool) (l : List Char)
    (h : l.dropWhile p ≠ []) : p ((l.dropWhile p).headI) = false := by
  induction l with
  | nil => simp at h
  | cons c r ih =>
    simp only [List.dropWhile] at h ⊢
    cases hc : p c
    · simpa using hc
    · rw [hc] at h; simpa using ih (by simpa using h)

theorem trimLeft_headI (s : List Char) (h : trimLeft s ≠ []) :
    isSpc ((trimLeft s).headI) = false :=
  dropWhile_headI isSpc s h

theorem pyStrip_ne_nil_headI (s : List Char) (h : pyStrip s ≠ []) :
    isSpc ((pyStrip s).headI) = false := by
  unfold pyStrip at h ⊢
  rw [trimRight_headI _ h]
  apply trimLeft_headI
  intro hnil
  rw [hnil] at h
  simp [trimRight] at h

theorem trimLeft_of_headI (z : List Char) (c : Char) (hc : isSpc c = false)
    (h : z = [] ∨ (z ≠ [] ∧ z.headI = c)) : trimLeft z = z := by
  rcases h with h | ⟨hne, hh⟩
  · simp [h, trimLeft]
  · cases z with
    | nil => simp at hne
    | cons x xs =>
      simp only [List.headI] at hh
      subst hh
      simp [trimLeft, List.dropWhile, hc]

theorem trimRight_cases (c : Char) (r : List Char) :
    trimRight (c :: r) = [] ∨
      (trimRight (c :: r) ≠ [] ∧ (trimRight (c :: r)).headI = c) := by
  rcases h : trimRight (c :: r) with _ | ⟨x, xs⟩
  · exact Or.inl rfl
  · right
    refine ⟨by simp, ?_⟩
    have := trimRight_headI (c :: r) (by simp [h])
    rw [h] at this
    simpa using this

theorem trimRight_trimRight (l : List Char) :
    trimRight (trimRight l) = trimRight l := by
  induction l with
  | nil => simp [trimRight]
  | cons c r ih =>
    rcases ht : trimRight r with _ | ⟨x, xs⟩
    · cases hc : isSpc c
      · have h1 : trimRight (c :: r) = [c] := by simp [trimRight, ht, hc]
        rw [h1]
        simp [trimRight, hc]
      · have h1 : trimRight (c :: r) = [] := by simp [trimRight, ht, hc]
        rw [h1]
        simp [trimRight]
    · have h1 : trimRight (c :: r) = c :: x :: xs := by simp [trimRight, ht]
      rw [ht] at ih
      rw [h1]
      have h2 : trimRight (c :: x :: xs) =
          match trimRight (x :: xs) with
          | [] => if isSpc c then [] else [c]
          | t => c :: t := rfl
      rw [h2, ih]

theorem trimLeft_trimRight_trimLeft (s : List Char) :
    trimLeft (trimRight (trimLeft s)) = trimRight (trimLeft s) := by
  rcases hy : trimLeft s with _ | ⟨c, r⟩
  · simp [trimRight, trimLeft, List.dropWhile]
  · have hc : isSpc c = false := by
      have := trimLeft_headI s (by simp [hy])
      rw [hy] at this; simpa using this
    exact trimLeft_of_headI _ c hc
      (by simpa using trimRight_cases c r)

theorem pyStrip_idem (s : List Char) : pyStrip (pyStrip s) = pyStrip s := by
  unfold pyStrip
  rw [trimLeft_trimRight_trimLeft, trimRight_trimRight]

theorem pyStrip_of_head_not_space (c : Char) (r : List Char)
    (hc : isSpc c = false) : pyStrip (c :: r) ≠ [] := by
  unfold pyStrip
  rw [show trimLeft (c :: r) = c :: r from by simp [trimLeft, List.dropWhile, hc]]
  exact trimRight_ne_nil c r hc

theorem mStruct_sound (u : List Char) (L : Nat) (w pl : List Char)
    (h : mStruct u = some (L, (w, pl))) :
    0 < L ∧ L ≤ u.length ∧ pl ≠ [] := by
  simp only [mStruct] at h
  split at h
  case isTrue h1 =>
    split at h
    case isTrue h2 =>
      simp only [Option.some.injEq, Prod.mk.injEq] at h
      obtain ⟨hL, hw, hpl⟩ := h
      obtain ⟨hr0, hrest2, -, -⟩ := h1
      obtain ⟨hp0, hpne, -⟩ := h2
      have hrle := runLen_le isWordChar u
      have hrestlen : (List.drop (runLen isWordChar u) u).length =
          u.length - runLen isWordChar u := by simp
      have hvlen : (List.drop 2 (List.drop (runLen isWordChar u) u)).length =
          u.length - runLen isWordChar u - 2 := by simp; omega
      have hplt : runLen (fun c => decide (c ≠ rbrace))
            (List.drop 2 (List.drop (runLen isWordChar u) u)) <
          (List.drop 2 (List.drop (runLen isWordChar u) u)).length := by
        by_contra hge
        push_neg at hge
        exact hpne (List.drop_eq_nil_of_le hge)
      refine ⟨by omega, by omega, ?_⟩
      rw [← hpl]
      intro hnil
      rw [List.take_eq_nil_iff] at hnil
      rcases hnil with hh | hh
      · omega
      · rw [hh] at hplt; simp at hplt
    case isFalse _ => simp at h
  case isFalse _ => simp at h

theorem symTail_sound (cont : Char → Bool) (look : List Char → Bool)
    (b : Nat) (v : List Char) (t : Nat) (h : symTail cont look b v = some t) :
    t ≤ v.length ∧ ∀ j < t, cont (v.getD j ' ') = true := by
  induction b generalizing v t with
  | zero =>
    cases v with
    | nil =>
      unfold symTail at h
      by_cases hl : look [] = true
      · rw [if_pos hl] at h
        simp only [Option.some.injEq] at h
        subst h; exact ⟨Nat.zero_le _, fun j hj => absurd hj (Nat.not_lt_zero j)⟩
      · rw [if_neg hl] at h; simp at h
    | cons c r =>
      unfold symTail at h
      by_cases hl : look (c :: r) = true
      · rw [if_pos hl] at h
        simp only [Option.some.injEq] at h
        subst h; exact ⟨Nat.zero_le _, fun j hj => absurd hj (Nat.not_lt_zero j)⟩
      · rw [if_neg hl] at h; simp at h
  | succ b ih =>
    cases v with
    | nil =>
      unfold symTail at h
      by_cases hl : look [] = true
      · rw [if_pos hl] at h
        simp only [Option.some.injEq] at h
        subst h; exact ⟨Nat.zero_le _, fun j hj => absurd hj (Nat.not_lt_zero j)⟩
      · rw [if_neg hl] at h; simp at h
    | cons c r =>
      unfold symTail at h
      by_cases hl : look (c :: r) = true
      · rw [if_pos hl] at h
        simp only [Option.some.injEq] at h
        subst h; exact ⟨Nat.zero_le _, fun j hj => absurd hj (Nat.not_lt_zero j)⟩
      · rw [if_neg hl] at h
        by_cases hc : cont c = true
        · rw [if_pos hc] at h
          rcases ho : symTail cont look b r with _ | t'
          · rw [ho] at h; simp at h
          · rw [ho] at h
            simp at h
            subst h
            obtain ⟨hlen, hchars⟩ := ih r t' ho
            refine ⟨by simp only [List.length_cons]; omega, ?_⟩
            intro j hj
            cases j with
            | zero => simpa [List.getD] using hc
            | succ j =>
              simp only [List.getD_cons_succ]
              exact hchars j (by omega)
        · rw [if_neg hc] at h; simp at h

theorem symFirst_symCont (c : Char) (h : symFirst c = true) : symCont c = true := by
  simp [symCont, h]

theorem mSym_sound (σ : Char) (stops : List (List Char)) (u : List Char)
    (L : Nat) (h : mSym σ stops u = some (L, ())) :
    2 ≤ L ∧ L ≤ u.length ∧ u.getD 0 ' ' = σ ∧
      symFirst (u.getD 1 ' ') = true ∧
      ∀ j, 1 ≤ j → j < L → symCont (u.getD j ' ') = true := by
  unfold mSym at h
  by_cases h1 : 2 ≤ u.length ∧ u.getD 0 ' ' = σ ∧ symFirst (u.getD 1 ' ') = true
  · rw [if_pos h1] at h
    obtain ⟨hu2, hσ, hfirst⟩ := h1
    rcases ho : symTail symCont (symLook stops) 60 (u.drop 2) with _ | t
    · rw [ho] at h; simp at h
    · rw [ho] at h
      simp at h
      have hL : 2 + t = L := by omega
      obtain ⟨hlen, hchars⟩ := symTail_sound _ _ _ _ _ ho
      have hdl : (u.drop 2).length = u.length - 2 := by simp
      refine ⟨by omega, by omega, hσ, hfirst, ?_⟩
      intro j h1j hjL
      match j, h1j with
      | 1, _ => exact symFirst_symCont _ hfirst
      | (j + 2), _ =>
        have heq : u.getD (j + 2) ' ' = (u.drop 2).getD j ' ' := by
          rw [getD_drop, Nat.add_comm]
        rw [heq]
        exact hchars j (by omega)
  · rw [if_neg h1] at h; simp at h

theorem isDigit_symCont (c : Char) (h : isDigitC c = true) : symCont c = true := by
  simp [symCont, symFirst, h]

theorem mSlash_sound (u : List Char) (L : Nat) (h : mSlash u = some (L, ())) :
    2 ≤ L ∧ L ≤ u.length ∧ u.getD 0 ' ' = '/' ∧
      isDigitC (u.getD 1 ' ') = true ∧
      ∀ j, 1 ≤ j → j < L → symCont (u.getD j ' ') = true := by
  simp only [mSlash] at h
  split at h
  case isTrue h1 =>
    split at h
    case isTrue h2 =>
      simp only [Option.some.injEq, Prod.mk.injEq] at h
      obtain ⟨hL, -⟩ := h
      obtain ⟨hu1, hslash⟩ := h1
      obtain ⟨hd0, -⟩ := h2
      have hdle := runLen_le isDigitC (List.drop 1 u)
      have hvlen : (List.drop 1 u).length = u.length - 1 := by simp
      have hget : ∀ j : Nat, u.getD (j + 1) ' ' = (List.drop 1 u).getD j ' ' := by
        intro j; rw [getD_drop, Nat.add_comm]
      refine ⟨by omega, by omega, hslash, ?_, ?_⟩
      · rw [show (1 : Nat) = 0 + 1 from rfl, hget 0]
        exact runLen_mem isDigitC (List.drop 1 u) ' ' 0 (by omega)
      · intro j h1j hjL
        match j, h1j with
        | (j + 1), _ =>
          rw [hget j]
          exact isDigit_symCont _ (runLen_mem isDigitC (List.drop 1 u) ' ' j (by omega))
    case isFalse _ => simp at h
  case isFalse _ => simp at h

theorem drop_tail_eq (text : List Char) (i : Nat) :
    (text.drop i).tail = text.drop (i + 1) := by
  rw [← List.drop_one, List.drop_drop, Nat.add_comm]

theorem scanAllF_start_ge {κ : Type} (m : List Char → Option (Nat × κ)) :
    ∀ (fuel : Nat) (s : List Char) (i : Nat),
      ∀ x ∈ scanAllF m fuel s i, i ≤ x.1 := by
  intro fuel
  induction fuel with
  | zero => intro s i x hx; simp [scanAllF] at hx
  | succ fuel ih =>
    intro s i x hx
    unfold scanAllF at hx
    split at hx
    next L k hm =>
      split at hx
      next hL =>
        rcases List.mem_cons.mp hx with rfl | hx
        · omega
        · exact le_trans (by omega) (ih (s.drop L) (i + L) x hx)
      next hL =>
        split at hx
        next => simp at hx
        next => exact le_trans (by omega) (ih s.tail (i + 1) x hx)
    next hm =>
      split at hx
      next => simp at hx
      next => exact le_trans (by omega) (ih s.tail (i + 1) x hx)

/-- Every match reported over the suffix `text.drop i` really is a match
of `m` at its own start, with positive length bounded by the remaining
text. -/
theorem scanAllF_sound {κ : Type} (m : List Char → Option (Nat × κ)) (text : List Char) :
    ∀ (fuel i : Nat), ∀ x ∈ scanAllF m fuel (text.drop i) i,
      m (text.drop x.1) = some (x.2.1 - x.1, x.2.2) ∧ x.1 < x.2.1 ∧
        x.2.1 - x.1 ≤ (text.drop x.1).length := by
  intro fuel
  induction fuel with
  | zero => intro i x hx; simp [scanAllF] at hx
  | succ fuel ih =>
    intro i x hx
    unfold scanAllF at hx
    split at hx
    next L k hm =>
      split at hx
      next hL =>
        rcases List.mem_cons.mp hx with rfl | hx
        · refine ⟨?_, by show i < i + L; omega,
            by show i + L - i ≤ (List.drop i text).length; omega⟩
          show m (List.drop i text) = some (i + L - i, k)
          rw [show i + L - i = L from by omega, hm]
        · rw [List.drop_drop] at hx
          exact ih (i + L) x hx
      next hL =>
        split at hx
        next => simp at hx
        next =>
          rw [drop_tail_eq] at hx
          exact ih (i + 1) x hx
    next hm =>
      split at hx
      next => simp at hx
      next =>
        rw [drop_tail_eq] at hx
        exact ih (i + 1) x hx

/-- Matches are reported in order: each match ends no later than the
next one starts. -/
theorem scanAllF_chain {κ : Type} (m : List Char → Option (Nat × κ)) :
    ∀ (fuel : Nat) (s : List Char) (i : Nat),
      List.Pairwise (fun x y => x.2.1 ≤ y.1) (scanAllF m fuel s i) := by
  intro fuel
  induction fuel with
  | zero => intro s i; simp [scanAllF]
  | succ fuel ih =>
    intro s i
    unfold scanAllF
    split
    next L k hm =>
      split
      next hL =>
        refine List.Pairwise.cons ?_ (ih (s.drop L) (i + L))
        intro y hy
        exact scanAllF_start_ge m fuel (s.drop L) (i + L) y hy
      next hL =>
        split
        next => simp
        next => exact ih s.tail (i + 1)
    next hm =>
      split
      next => simp
      next => exact ih s.tail (i + 1)

/-- Two spans are disjoint when one ends before the other starts. -/
def SpanDisj (a b : EntityMatch) : Prop :=
  a.«end» ≤ b.start ∨ b.«end» ≤ a.start

theorem SpanDisj_symm : Symmetric SpanDisj := by
  intro a b h
  rcases h with h | h
  · exact Or.inr h
  · exact Or.inl h

/-- What scanning one symbol pattern guarantees about each emitted
entity: the span starts at the symbol, covers only continuation-class
characters after it, stays in bounds, and the value is the stripped
capture. -/
def SymFact (text : List Char) (σ : Char) (e : EntityMatch) : Prop :=
  e.symbol = σ ∧ e.start + 2 ≤ e.«end» ∧ e.«end» ≤ text.length ∧
  text.getD e.start ' ' = σ ∧
  symFirst (text.getD (e.start + 1) ' ') = true ∧
  (∀ j, e.start < j → j < e.«end» → symCont (text.getD j ' ') = true) ∧
  e.value = symValue text e.start e.«end»

theorem mem_scanAll_sound {κ : Type} (m : List Char → Option (Nat × κ))
    (text : List Char) (x : Nat × Nat × κ) (hx : x ∈ scanAll m text) :
    m (text.drop x.1) = some (x.2.1 - x.1, x.2.2) ∧ x.1 < x.2.1 ∧
      x.2.1 - x.1 ≤ (text.drop x.1).length := by
  apply scanAllF_sound m text (text.length + 1) 0
  simpa [scanAll] using hx

theorem symEntities_fact (text : List Char) (σ : Char) (ty : List Char)
    (stops : List (List Char)) :
    ∀ e ∈ symEntities text σ ty stops, SymFact text σ e := by
  intro e he
  rw [symEntities, List.mem_map] at he
  obtain ⟨x, hx, rfl⟩ := he
  obtain ⟨hm, hlt, hle⟩ := mem_scanAll_sound _ text x hx
  obtain ⟨h2L, hLlen, h0, hfirst, hint⟩ := mSym_sound σ stops _ _ hm
  have hdlen : (text.drop x.1).length = text.length - x.1 := by simp
  refine ⟨rfl, ?_, ?_, ?_, ?_, ?_, rfl⟩
  · show x.1 + 2 ≤ x.2.1
    omega
  · show x.2.1 ≤ text.length
    omega
  · show text.getD x.1 ' ' = σ
    rw [← h0, getD_drop, Nat.add_zero]
  · show symFirst (text.getD (x.1 + 1) ' ') = true
    rw [← show (text.drop x.1).getD 1 ' ' = text.getD (x.1 + 1) ' ' from getD_drop ..]
    exact hfirst
  · show ∀ j, x.1 < j → j < x.2.1 → symCont (text.getD j ' ') = true
    intro j hj1 hj2
    have hco := hint (j - x.1) (by omega) (by omega)
    rw [getD_drop, show x.1 + (j - x.1) = j from by omega] at hco
    exact hco

theorem slashEntities_fact (text : List Char) :
    ∀ e ∈ slashEntities text, SymFact text '/' e := by
  intro e he
  rw [slashEntities, List.mem_map] at he
  obtain ⟨x, hx, rfl⟩ := he
  obtain ⟨hm, hlt, hle⟩ := mem_scanAll_sound _ text x hx
  obtain ⟨h2L, hLlen, h0, hdig, hint⟩ := mSlash_sound _ _ hm
  have hdlen : (text.drop x.1).length = text.length - x.1 := by simp
  refine ⟨rfl, ?_, ?_, ?_, ?_, ?_, rfl⟩
  · show x.1 + 2 ≤ x.2.1
    omega
  · show x.2.1 ≤ text.length
    omega
  · show text.getD x.1 ' ' = '/'
    rw [← h0, getD_drop, Nat.add_zero]
  · show symFirst (text.getD (x.1 + 1) ' ') = true
    rw [← show (text.drop x.1).getD 1 ' ' = text.getD (x.1 + 1) ' ' from getD_drop ..]
    simp only [symFirst, hdig, Bool.or_true]
  · show ∀ j, x.1 < j → j < x.2.1 → symCont (text.getD j ' ') = true
    intro j hj1 hj2
    have hco := hint (j - x.1) (by omega) (by omega)
    rw [getD_drop, show x.1 + (j - x.1) = j from by omega] at hco
    exact hco

theorem scanAll_chain {κ : Type} (m : List Char → Option (Nat × κ)) (text : List Char) :
    List.Pairwise (fun x y => x.2.1 ≤ y.1) (scanAll m text) :=
  scanAllF_chain m (text.length + 1) text 0

theorem symEntities_pairwise (text : List Char) (σ : Char) (ty : List Char)
    (stops : List (List Char)) :
    List.Pairwise SpanDisj (symEntities text σ ty stops) := by
  rw [symEntities, List.pairwise_map]
  exact (scanAll_chain _ text).imp (fun h => Or.inl h)

theorem slashEntities_pairwise (text : List Char) :
    List.Pairwise SpanDisj (slashEntities text) := by
  rw [slashEntities, List.pairwise_map]
  exact (scanAll_chain _ text).imp (fun h => Or.inl h)

theorem symFact_cross (text : List Char) (σ1 σ2 : Char) (e1 e2 : EntityMatch)
    (h1 : SymFact text σ1 e1) (h2 : SymFact text σ2 e2) (hσ : σ1 ≠ σ2)
    (hc1 : symCont σ1 = false) (hc2 : symCont σ2 = false) : SpanDisj e1 e2 := by
  obtain ⟨-, hlen1, -, hat1, -, hint1, -⟩ := h1
  obtain ⟨-, hlen2, -, hat2, -, hint2, -⟩ := h2
  by_contra hnd
  unfold SpanDisj at hnd
  push_neg at hnd
  obtain ⟨hn1, hn2⟩ := hnd
  rcases lt_trichotomy e1.start e2.start with hlt | heq | hgt
  · have := hint1 e2.start hlt (by omega)
    rw [hat2] at this
    rw [this] at hc2
    exact absurd hc2 (by simp)
  · rw [heq, hat2] at hat1
    exact hσ hat1.symm
  · have := hint2 e1.start hgt (by omega)
    rw [hat1] at this
    rw [this] at hc1
    exact absurd hc1 (by simp)

theorem symFirst_not_space (c : Char) (h : symFirst c = true) : isSpc c = false := by
  cases hs : isSpc c
  · rfl
  · exfalso
    simp only [isSpc, Bool.or_eq_true, decide_eq_true_eq] at hs
    rcases hs with ((((rfl | rfl) | rfl) | rfl) | rfl) | rfl <;>
      exact absurd h (by decide)

/-- The head of the drop-suffix, as a `getD`. -/
theorem drop_head_getD (text : List Char) (n : Nat) (hn : n < text.length) :
    ∃ rest, text.drop n = text.getD n ' ' :: rest := by
  rcases hd : text.drop n with _ | ⟨c, rest⟩
  · exfalso
    have := congrArg List.length hd
    simp only [List.length_drop, List.length_nil] at this
    omega
  · refine ⟨rest, ?_⟩
    have hg : (text.drop n).getD 0 ' ' = c := by rw [hd]; rfl
    rw [getD_drop, Nat.add_zero] at hg
    rw [hg]

/-- The value of a symbol-branch entity is trimmed and non-empty: the
capture starts with a first-class (non-whitespace) character. -/
theorem symFact_value (text : List Char) (σ : Char) (e : EntityMatch)
    (h : SymFact text σ e) : e.value ≠ [] ∧ pyStrip e.value = e.value := by
  obtain ⟨-, hlen, hle, -, hfirst, -, hval⟩ := h
  have hn1 : e.start + 1 < text.length := by omega
  obtain ⟨rest, hd⟩ := drop_head_getD text (e.start + 1) hn1
  have hksucc : ∃ k, e.«end» - e.start - 1 = k + 1 := ⟨e.«end» - e.start - 2, by omega⟩
  obtain ⟨k, hk⟩ := hksucc
  have hcap : (text.drop (e.start + 1)).take (e.«end» - e.start - 1) =
      text.getD (e.start + 1) ' ' :: rest.take k := by
    rw [hd, hk]
    rfl
  have hspace : isSpc (text.getD (e.start + 1) ' ') = false :=
    symFirst_not_space _ hfirst
  constructor
  · rw [hval]
    unfold symValue
    rw [hcap]
    exact pyStrip_of_head_not_space _ _ hspace
  · rw [hval]
    unfold symValue
    exact pyStrip_idem _

theorem structEntities_fact (text : List Char) :
    ∀ e ∈ structEntities text,
      e.symbol = '=' ∧ e.start < e.«end» ∧ e.«end» ≤ text.length ∧ e.value ≠ [] := by
  intro e he
  rw [structEntities, List.mem_map] at he
  obtain ⟨x, hx, rfl⟩ := he
  have hx2 : x ∈ scanAll mStruct text := (List.mem_filter.mp hx).1
  obtain ⟨hm, hlt, hle⟩ := mem_scanAll_sound _ text x hx2
  obtain ⟨h0, hL, hpl⟩ := mStruct_sound _ _ x.2.2.1 x.2.2.2 hm
  have hdlen : (text.drop x.1).length = text.length - x.1 := by simp
  exact ⟨rfl, hlt, by show x.2.1 ≤ text.length; omega, hpl⟩

theorem structEntities_pairwise (text : List Char) :
    List.Pairwise SpanDisj (structEntities text) := by
  rw [structEntities, List.pairwise_map]
  exact ((scanAll_chain _ text).filter _).imp (fun h => Or.inl h)

theorem symFacts_cross_lists (text : List Char) (σ1 σ2 : Char)
    (l1 l2 : List EntityMatch)
    (hf1 : ∀ e ∈ l1, SymFact text σ1 e) (hf2 : ∀ e ∈ l2, SymFact text σ2 e)
    (hσ : σ1 ≠ σ2) (hc1 : symCont σ1 = false) (hc2 : symCont σ2 = false) :
    ∀ a ∈ l1, ∀ b ∈ l2, SpanDisj a b :=
  fun a ha b hb =>
    symFact_cross text σ1 σ2 a b (hf1 a ha) (hf2 b hb) hσ hc1 hc2

/-- All facts about the extractor output needed by the span and value
claims: spans are positive-width, in bounds, pairwise disjoint; values
are non-empty, and trimmed for every symbol-branch entity. -/
theorem extract_entities_sound (text : List Char) :
    List.Pairwise SpanDisj (extract_entities text) ∧
      ∀ e ∈ extract_entities text,
        e.start < e.«end» ∧ e.«end» ≤ text.length ∧ e.value ≠ [] ∧
          (e.symbol ≠ '=' → pyStrip e.value = e.value) := by
  unfold extract_entities
  split
  case isFalse hne =>
    refine ⟨structEntities_pairwise text, ?_⟩
    intro e he
    obtain ⟨hsym, h1, h2, h3⟩ := structEntities_fact text e he
    exact ⟨h1, h2, h3, fun hns => absurd hsym hns⟩
  case isTrue hempty =>
    have f1 := symEntities_fact text '@' ("personnel".toList) stopsAt
    have f2 := symEntities_fact text '#' ("work_order".toList) stopsHash
    have f3 := slashEntities_fact text
    have f4 := symEntities_fact text '+' ("project".toList) stopsHash
    have f5 := symEntities_fact text '&' ("client".toList) stopsHash
    have p12 : List.Pairwise SpanDisj
        (symEntities text '@' ("personnel".toList) stopsAt ++
          symEntities text '#' ("work_order".toList) stopsHash) := by
      rw [List.pairwise_append]
      exact ⟨symEntities_pairwise .., symEntities_pairwise ..,
        symFacts_cross_lists text '@' '#' _ _ f1 f2 (by decide) (by decide) (by decide)⟩
    have p123 : List.Pairwise SpanDisj
        (symEntities text '@' ("personnel".toList) stopsAt ++
          symEntities text '#' ("work_order".toList) stopsHash ++
          slashEntities text) := by
      rw [List.pairwise_append]
      refine ⟨p12, slashEntities_pairwise _, ?_⟩
      intro a ha b hb
      rcases List.mem_append.mp ha with ha | ha
      · exact symFacts_cross_lists text '@' '/' _ _ f1 f3
          (by decide) (by decide) (by decide) a ha b hb
      · exact symFacts_cross_lists text '#' '/' _ _ f2 f3
          (by decide) (by decide) (by decide) a ha b hb
    have p1234 : List.Pairwise SpanDisj
        (symEntities text '@' ("personnel".toList) stopsAt ++
          symEntities text '#' ("work_order".toList) stopsHash ++
          slashEntities text ++
          symEntities text '+' ("project".toList) stopsHash) := by
      rw [List.pairwise_append]
      refine ⟨p123, symEntities_pairwise .., ?_⟩
      intro a ha b hb
      rcases List.mem_append.mp ha with ha | ha
      · rcases List.mem_append.mp ha with ha | ha
        · exact symFacts_cross_lists text '@' '+' _ _ f1 f4
            (by decide) (by decide) (by decide) a ha b hb
        · exact symFacts_cross_lists text '#' '+' _ _ f2 f4
            (by decide) (by decide) (by decide) a ha b hb
      · exact symFacts_cross_lists text '/' '+' _ _ f3 f4
          (by decide) (by decide) (by decide) a ha b hb
    constructor
    · rw [List.pairwise_append]
      refine ⟨p1234, symEntities_pairwise .., ?_⟩
      intro a ha b hb
      rcases List.mem_append.mp ha with ha | ha
      · rcases List.mem_append.mp ha with ha | ha
        · rcases List.mem_append.mp ha with ha | ha
          · exact symFacts_cross_lists text '@' '&' _ _ f1 f5
              (by decide) (by decide) (by decide) a ha b hb
          · exact symFacts_cross_lists text '#' '&' _ _ f2 f5
              (by decide) (by decide) (by decide) a ha b hb
        · exact symFacts_cross_lists text '/' '&' _ _ f3 f5
            (by decide) (by decide) (by decide) a ha b hb
      · exact symFacts_cross_lists text '+' '&' _ _ f4 f5
          (by decide) (by decide) (by decide) a ha b hb
    · intro e he
      have hfact : ∃ σ, SymFact text σ e := by
        rcases List.mem_append.mp he with h | h
        · rcases List.mem_append.mp h with h | h
          · rcases List.mem_append.mp h with h | h
            · rcases List.mem_append.mp h with h | h
              · exact ⟨'@', f1 e h⟩
              · exact ⟨'#', f2 e h⟩
            · exact ⟨'/', f3 e h⟩
          · exact ⟨'+', f4 e h⟩
        · exact ⟨'&', f5 e h⟩
      obtain ⟨σ, hf⟩ := hfact
      obtain ⟨hv1, hv2⟩ := symFact_value text σ e hf
      exact ⟨by have := hf.2.1; omega, hf.2.2.1, hv1, fun _ => hv2⟩
theorem insertDesc_perm (e : EntityMatch) (l : List EntityMatch) :
    List.Perm (insertDesc e l) (e :: l) := by
  induction l with
  | nil => simp [insertDesc]
  | cons x xs ih =>
    unfold insertDesc
    by_cases h : x.start ≤ e.start
    · rw [if_pos h]
    · rw [if_neg h]
      exact List.Perm.trans (List.Perm.cons x ih) (List.Perm.swap e x xs)

theorem sortByStartDesc_perm (l : List EntityMatch) :
    List.Perm (sortByStartDesc l) l := by
  induction l with
  | nil => simp [sortByStartDesc]
  | cons e rest ih =>
    unfold sortByStartDesc
    exact List.Perm.trans (insertDesc_perm e _) (List.Perm.cons e ih)

theorem insertDesc_sorted (e : EntityMatch) (l : List EntityMatch)
    (hl : List.Pairwise (fun a b => b.start ≤ a.start) l) :
    List.Pairwise (fun a b => b.start ≤ a.start) (insertDesc e l) := by
  induction l with
  | nil => simp [insertDesc]
  | cons x xs ih =>
    unfold insertDesc
    rcases List.pairwise_cons.mp hl with ⟨hx, hxs⟩
    by_cases h : x.start ≤ e.start
    · rw [if_pos h]
      refine List.pairwise_cons.mpr ⟨?_, hl⟩
      intro b hb
      rcases List.mem_cons.mp hb with rfl | hb
      · exact h
      · exact le_trans (hx b hb) h
    · rw [if_neg h]
      refine List.pairwise_cons.mpr ⟨?_, ih hxs⟩
      intro b hb
      have hb2 := (insertDesc_perm e xs).mem_iff.mp hb
      rcases List.mem_cons.mp hb2 with rfl | hb2
      · omega
      · exact hx b hb2

theorem sortByStartDesc_sorted (l : List EntityMatch) :
    List.Pairwise (fun a b => b.start ≤ a.start) (sortByStartDesc l) := by
  induction l with
  | nil => simp [sortByStartDesc]
  | cons e rest ih => exact insertDesc_sorted e _ ih

/-- After the descending stable sort, disjointness plus sortedness force
the chain shape: every later span ends before the current one starts. -/
theorem sorted_disjoint_chain (l : List EntityMatch)
    (hs : List.Pairwise (fun a b => b.start ≤ a.start) l)
    (hd : List.Pairwise SpanDisj l)
    (hpos : ∀ e ∈ l, e.start < e.«end») :
    List.Pairwise (fun a b => b.«end» ≤ a.start) l := by
  induction l with
  | nil => simp
  | cons x xs ih =>
    rcases List.pairwise_cons.mp hs with ⟨hs1, hs2⟩
    rcases List.pairwise_cons.mp hd with ⟨hd1, hd2⟩
    refine List.pairwise_cons.mpr ⟨?_, ih hs2 hd2 (fun e he => hpos e (by simp [he]))⟩
    intro b hb
    have hstart := hs1 b hb
    have hdj := hd1 b hb
    have hxpos := hpos x (by simp)
    have hbpos := hpos b (by simp [hb])
    rcases hdj with h | h
    · omega
    · exact h

/-- Excising a descending chain of in-bounds spans removes exactly the
sum of the span widths. -/
theorem exciseAll_length (es : List EntityMatch) :
    ∀ text : List Char,
      List.Pairwise (fun a b => b.«end» ≤ a.start) es →
      (∀ e ∈ es, e.start < e.«end» ∧ e.«end» ≤ text.length) →
      (exciseAll text es).length + sumSpans es = text.length := by
  induction es with
  | nil => intro text _ _; simp [exciseAll, sumSpans]
  | cons e rest ih =>
    intro text hchain hbounds
    rcases List.pairwise_cons.mp hchain with ⟨hc1, hc2⟩
    obtain ⟨hepos, hele⟩ := hbounds e (by simp)
    have hstep : exciseAll text (e :: rest) =
        exciseAll (text.take e.start ++ text.drop e.«end») rest := rfl
    have hlen1 : (text.take e.start ++ text.drop e.«end»).length =
        text.length - (e.«end» - e.start) := by
      simp [List.length_append, List.length_take, List.length_drop]
      omega
    have hrest : ∀ x ∈ rest, x.start < x.«end» ∧
        x.«end» ≤ (text.take e.start ++ text.drop e.«end»).length := by
      intro x hx
      obtain ⟨h1, h2⟩ := hbounds x (by simp [hx])
      refine ⟨h1, ?_⟩
      have := hc1 x hx
      rw [hlen1]
      omega
    have hIH := ih (text.take e.start ++ text.drop e.«end») hc2 hrest
    rw [hlen1] at hIH
    have hexp : sumSpans (e :: rest) = (e.«end» - e.start) + sumSpans rest := by
      simp [sumSpans]
    rw [hstep, hexp]
    omega


/-! ### J. Helper lemmas for the claim theorems -/

theorem splitWS_cons_of_head (c : Char) (r : List Char) (hc : isSpc c = false) :
    splitWS (c :: r) =
      (c :: r.takeWhile (fun d => !isSpc d)) :: splitWS (r.dropWhile (fun d => !isSpc d)) := by
  rw [splitWS]
  rw [if_neg (by simp [hc])]

theorem joinSpace_head_ne (w : List Char) (ws : List (List Char)) (h : w ≠ []) :
    joinSpace (w :: ws) ≠ [] := by
  cases ws with
  | nil => simpa [joinSpace] using h
  | cons x xs =>
    simp only [joinSpace]
    intro hc
    rcases List.append_eq_nil.mp hc with ⟨-, h2⟩
    exact List.noConfusion h2

theorem joinSpace_take_ne (w : List Char) (ws : List (List Char)) (n : Nat) (h : w ≠ []) :
    joinSpace (List.take (n + 1) (w :: ws)) ≠ [] := by
  rw [List.take_succ_cons]
  exact joinSpace_head_ne _ _ h

/-- Every title the pattern loop of `_extract_title` accepts is longer
than two characters. -/
theorem titleLoop_some_len (ps : List (Option Char → List Char → Option (List Char)))
    (text t : List Char) (h : titleLoop ps text = some t) : 2 < t.length := by
  induction ps with
  | nil => simp [titleLoop] at h
  | cons p ps ih =>
    simp only [titleLoop] at h
    split at h
    · split at h
      · next hcond => cases h; exact hcond
      · exact ih h
    · exact ih h

/-- Steps 3–6 of `_extract_title` (residual text, entity fallback,
literal default) always produce a non-empty title. -/
theorem title_step3_ne (X : List Char) (entities : List EntityMatch) :
    (if 2 < (pyStrip X).length && !((pyStrip X).all isDigitC) then
        joinSpace ((splitWS (pyStrip X)).take 6)
      else
        match entities.find? (fun e =>
            goodTypes.contains e.type && 2 < e.value.length) with
        | some e => e.value
        | none => "New Task".toList) ≠ [] := by
  split
  · next hcond =>
    simp only [Bool.and_eq_true, decide_eq_true_eq] at hcond
    have h2 : 2 < (pyStrip X).length := hcond.1
    have hne : pyStrip X ≠ [] := by
      intro hc; rw [hc] at h2; simp at h2
    have hhead := pyStrip_ne_nil_headI X hne
    cases hcons : pyStrip X with
    | nil => exact absurd hcons hne
    | cons c r =>
      rw [hcons] at hhead
      simp only [List.headI] at hhead
      rw [splitWS_cons_of_head c r hhead]
      exact joinSpace_take_ne _ _ 5 (by simp)
  · split
    · next e hfind =>
      have hp := List.find?_some hfind
      simp only [Bool.and_eq_true, decide_eq_true_eq] at hp
      have h2 : 2 < e.value.length := hp.2
      intro hc; rw [hc] at h2; simp at h2
    · decide

/-- `_extract_title` returns a non-empty title whenever the quoted
capture (if any) does not strip to the empty string. -/
theorem extract_title_ne_nil (text : List Char) (entities : List EntityMatch)
    (hq : ∀ cap, quoteFind text = some cap → pyStrip cap ≠ []) :
    extract_title text entities ≠ [] := by
  cases hquote : quoteFind text with
  | some cap =>
    simp only [extract_title, hquote]
    exact hq cap hquote
  | none =>
    cases hloop : titleLoop title_patterns text with
    | some t =>
      have hlen := titleLoop_some_len title_patterns text t hloop
      simp only [extract_title, hquote, hloop]
      intro hc; rw [hc] at hlen; simp at hlen
    | none =>
      simp only [extract_title, hquote, hloop]
      exact title_step3_ne _ entities

theorem pymin_le_left (a b : ℚ) : pymin a b ≤ a := by
  unfold pymin
  split
  · exact le_refl a
  · next h => exact le_of_not_le h

theorem pymin_le_right (a b : ℚ) : pymin a b ≤ b := by
  unfold pymin
  split
  · next h => exact h
  · exact le_refl b

theorem le_pymin (a b c : ℚ) (h1 : c ≤ a) (h2 : c ≤ b) : c ≤ pymin a b := by
  unfold pymin
  split
  · exact h1
  · exact h2

/-- `_calculate_confidence` always lands in [0, 1]. -/
theorem conf_bounds (text : List Char) (intent : Intent) (entities : List EntityMatch) :
    0 ≤ calculate_confidence text intent entities ∧
      calculate_confidence text intent entities ≤ 1 := by
  unfold calculate_confidence
  constructor
  · refine le_pymin _ _ _ (by norm_num) ?_
    have h1 : (0:ℚ) ≤ if intent ≠ Intent.unknown then 45/100 else 0 := by
      split
      · norm_num
      · norm_num
    have h2 : (0:ℚ) ≤ pymin (35/100) ((entities.length : ℚ) * (12/100)) := by
      refine le_pymin _ _ _ (by norm_num) (by positivity)
    have h3 : (0:ℚ) ≤ if taskWordSearch text then 12/100 else 0 := by
      split
      · norm_num
      · norm_num
    have h4 : (0:ℚ) ≤ if actionVerbSearch text then 8/100 else 0 := by
      split
      · norm_num
      · norm_num
    linarith
  · exact pymin_le_left _ _

/-- The code's confidence formula agrees with the spec's wording. -/
theorem conf_eq_spec (text : List Char) (intent : Intent) (entities : List EntityMatch) :
    calculate_confidence text intent entities = confidence_spec text intent entities := by
  by_cases hi : intent = Intent.unknown
  · simp [calculate_confidence, confidence_spec, hi, mul_comm]
  · simp [calculate_confidence, confidence_spec, hi, mul_comm]

/-- With unknown intent and no entities only the task-word (0.12) and
action-verb (0.08) terms remain, so confidence is at most 0.2. -/
theorem conf_unknown_bound (text : List Char) (intent : Intent)
    (entities : List EntityMatch) (hi : intent = Intent.unknown)
    (he : entities = []) :
    calculate_confidence text intent entities ≤ 1/5 := by
  subst hi he
  unfold calculate_confidence
  refine le_trans (pymin_le_right _ _) ?_
  have h3 : (if taskWordSearch text then (12:ℚ)/100 else 0) ≤ 12/100 := by
    split
    · norm_num
    · norm_num
  have h4 : (if actionVerbSearch text then (8:ℚ)/100 else 0) ≤ 8/100 := by
    split
    · norm_num
    · norm_num
  have h2 : pymin ((35:ℚ)/100) ((([] : List EntityMatch).length : ℚ) * (12/100)) = 0 := by
    simp [pymin]
  simp only [ne_eq, not_true_eq_false, if_false, h2]
  linarith

/-! ### K. The claims -/

/-- C1: refuted by the code (code bug).  The spec's relative-date table
is claimed to map English 'tomorrow' to a one-day offset, and the
line-164 comment of `main.py` says the English relative words were kept;
but `self.relatives` (lines 196–206) holds only the Greek relative words
plus 'next week'.  For every value of the captured `now`, the input
'create a task in #Garden Care for tomorrow' matches no entry of the
table and the pipeline's due_date is `none`, not now + 1 day. -/
theorem c1_tomorrow_unmatched (now : PyDateTime) :
    relativesFind
        (pyStrip ((("create a task in #Garden Care for tomorrow").toList).map pyLowerChar)) =
      none ∧
    processDueDate (fun _ => now) (("create a task in #Garden Care for tomorrow").toList) =
      none :=
  ⟨rfl, rfl⟩

/-- C2 (amended): the weekday lookup covers only the Greek spellings of
`GREEK_WEEKDAYS`; the English weekday name in 'schedule task for
+maintenance project due friday at 3pm' never matches, so the resolver
falls through to the time-only default and returns today at 15:00 for
every `now`.  A Greek weekday name ('παρασκευή', index 4) does resolve
to the next occurrence of that weekday at the given time. -/
theorem c2_weekday_greek_only (now : PyDateTime) :
    weekdaySearchIdx (("schedule task for +maintenance project due friday at 3pm").toList) =
      none ∧
    extractDatetime now
        (("schedule task for +maintenance project due friday at 3pm").toList) false =
      some (setHMS now 15 0) ∧
    weekdaySearchIdx (("εργασία για παρασκευή στις 3μμ").toList) = some 4 ∧
    extractDatetime now (("εργασία για παρασκευή στις 3μμ").toList) false =
      some (setHMS (addDays now (next_weekday_delta (fun _ => now) 0 4).1) 15 0) :=
  ⟨rfl, rfl, rfl, rfl⟩

/-- C2, counterexample to the frozen claim: on Thursday 1970-01-01 09:00
(weekday 3), 'schedule task for +maintenance project due friday at 3pm'
yields today at 15:00 (day 0), not next Friday at 15:00 (day 1) as the
claim states. -/
theorem c2_counterexample :
    weekdayOf ⟨0, 9, 0, 0, 0⟩ = 3 ∧
    extractDatetime ⟨0, 9, 0, 0, 0⟩
        (("schedule task for +maintenance project due friday at 3pm").toList) false =
      some ⟨0, 15, 0, 0, 0⟩ ∧
    (some (⟨0, 15, 0, 0, 0⟩ : PyDateTime) ≠ some (⟨1, 15, 0, 0, 0⟩ : PyDateTime)) :=
  ⟨rfl, rfl, by decide⟩

/-- C3 (amended): the title resolver returns a non-empty title for every
input whose quoted capture (if one exists) is not whitespace-only; the
quote branch returns `match.group(1).strip()` unchecked, which is the
only way an empty title escapes.  The pipeline's title field inherits
the same guarantee. -/
theorem c3_title_nonempty (text : List Char) (entities : List EntityMatch)
    (now : PyDateTime)
    (hq : ∀ cap, quoteFind text = some cap → pyStrip cap ≠ []) :
    extract_title text entities ≠ [] ∧ (processPure now text).title ≠ [] :=
  ⟨extract_title_ne_nil text entities hq,
   extract_title_ne_nil text (extract_entities text) hq⟩

/-- C3, witness: at the concrete input 'hello there' (no quotes, so the
hypothesis is vacuous) the title is non-empty. -/
theorem c3_witness : extract_title (("hello there").toList) [] ≠ [] :=
  (c3_title_nonempty (("hello there").toList) [] ⟨0, 0, 0, 0, 0⟩
    (fun cap h => by
      rw [show quoteFind (("hello there").toList) = none from rfl] at h
      exact Option.noConfusion h)).1

/-- C3, counterexample to the frozen claim: the input `" "` (a quoted
single space) makes the quote branch return the strip of ' ', which is
empty — both in `_extract_title` and in the full pipeline. -/
theorem c3_counterexample :
    extract_title [dquote, ' ', dquote] [] = [] ∧
    (processPure ⟨0, 0, 0, 0, 0⟩ [dquote, ' ', dquote]).title = [] :=
  ⟨rfl, rfl⟩

/-- C4 (amended): the structured-payload rule inspects only the FIRST
`task=\x7b...\x7d` payload of the text.  When that first payload is a
24-hex id and an update verb occurs anywhere, the intent is
`update_task` regardless of any other content. -/
theorem c4_hex_update (text p : List Char)
    (h1 : firstTaskPayload text = some p) (h2 : isHex24 p = true)
    (h3 : searchO verbTokenM text = true) :
    detect_intent text = Intent.update_task := by
  simp only [detect_intent, h1, h2, if_true]
  cases hu : update_patterns.any (fun m => reSearch m text) with
  | true => simp [hu]
  | false =>
    cases hf : searchO fieldTokenM text with
    | true => simp [hu, hf]
    | false => simp [hu, hf, h3]

/-- C4, witness: 'alter task=\x7b0123456789abcdef01234567\x7d' has the
24-hex payload first and the update verb 'alter', so the intent is
`update_task`. -/
theorem c4_witness :
    detect_intent (("alter task=").toList ++
        lbrace :: ("0123456789abcdef01234567").toList ++ [rbrace]) =
      Intent.update_task :=
  c4_hex_update _ (("0123456789abcdef01234567").toList) rfl rfl rfl

/-- C4, counterexample to the frozen claim: a text that contains a
structured `task=\x7b24-hex\x7d` payload and the update verb 'alter',
but whose FIRST `task=\x7b...\x7d` payload is not hexadecimal, falls
through to the ordered rules and classifies `create_task`. -/
theorem c4_counterexample :
    (let t := ("create a task alter task=").toList ++
        lbrace :: ("zzzzzzzzzzzzzzzzzzzzzzzz").toList ++ [rbrace] ++
        (" task=").toList ++ lbrace :: ("0123456789abcdef01234567").toList ++ [rbrace]
     containsSub (("task=").toList ++
        lbrace :: ("0123456789abcdef01234567").toList ++ [rbrace]) t = true ∧
     isHex24 (("0123456789abcdef01234567").toList) = true ∧
     searchO verbTokenM t = true ∧
     detect_intent t = Intent.create_task) :=
  ⟨rfl, rfl, rfl, rfl⟩

/-- C5: confirmed.  For every input text the extracted entity spans are
pairwise disjoint and lie within the text, and excising them in
descending start order (exactly as `_extract_title` does) removes
exactly the sum of the span widths — every slice is in bounds, so the
excision never raises. -/
theorem c5_entity_spans (text : List Char) :
    List.Pairwise SpanDisj (extract_entities text) ∧
      (∀ e ∈ extract_entities text, e.start < e.«end» ∧ e.«end» ≤ text.length) ∧
      (exciseAll text (sortByStartDesc (extract_entities text))).length +
        sumSpans (sortByStartDesc (extract_entities text)) = text.length := by
  obtain ⟨hpw, hmem⟩ := extract_entities_sound text
  refine ⟨hpw, fun e he => ⟨(hmem e he).1, (hmem e he).2.1⟩, ?_⟩
  have hperm := sortByStartDesc_perm (extract_entities text)
  have hsorted := sortByStartDesc_sorted (extract_entities text)
  have hpw2 : List.Pairwise SpanDisj (sortByStartDesc (extract_entities text)) :=
    (hperm.pairwise_iff (fun h => SpanDisj_symm h)).mpr hpw
  have hposmem : ∀ e ∈ sortByStartDesc (extract_entities text),
      e.start < e.«end» ∧ e.«end» ≤ text.length := by
    intro e he
    have he2 := hperm.subset he
    exact ⟨(hmem e he2).1, (hmem e he2).2.1⟩
  have hchain := sorted_disjoint_chain _ hsorted hpw2 (fun e he => (hposmem e he).1)
  exact exciseAll_length _ text hchain hposmem

/-- C6 (amended): every extracted entity has a non-empty value, and
every SYMBOL-form entity (symbol ≠ '=') has a value that equals its own
strip and stays non-empty after stripping.  The structured '=' form
gives no such guarantee (see the counterexample). -/
theorem c6_entity_values (text : List Char) (e : EntityMatch)
    (he : e ∈ extract_entities text) :
    e.value ≠ [] ∧
      (e.symbol ≠ '=' → pyStrip e.value = e.value ∧ pyStrip e.value ≠ []) := by
  obtain ⟨-, h2⟩ := extract_entities_sound text
  obtain ⟨-, -, h3, h4⟩ := h2 e he
  exact ⟨h3, fun hs => ⟨h4 hs, by rw [h4 hs]; exact h3⟩⟩

/-- C6, witness: the entity extracted from 'call @Alice for help' has
the trimmed non-empty value 'Alice'. -/
theorem c6_witness :
    (⟨("personnel").toList, ("Alice").toList, '@', 5, 11⟩ : EntityMatch).value ≠ [] ∧
      ((⟨("personnel").toList, ("Alice").toList, '@', 5, 11⟩ : EntityMatch).symbol ≠ '=' →
        pyStrip (⟨("personnel").toList, ("Alice").toList, '@', 5, 11⟩ : EntityMatch).value =
            (⟨("personnel").toList, ("Alice").toList, '@', 5, 11⟩ : EntityMatch).value ∧
          pyStrip (⟨("personnel").toList, ("Alice").toList, '@', 5, 11⟩ : EntityMatch).value ≠ []) :=
  c6_entity_values (("call @Alice for help").toList)
    ⟨("personnel").toList, ("Alice").toList, '@', 5, 11⟩ (by decide)

/-- C6, counterexample to the frozen claim: `task=\x7b \x7d` emits a
structured entity whose value is the single space ' ' — not trimmed, and
empty after trimming. -/
theorem c6_counterexample :
    extract_entities (("task=").toList ++ lbrace :: ' ' :: [rbrace]) =
      [⟨("task").toList, [' '], '=', 0, 8⟩] ∧
    pyStrip [' '] = [] :=
  ⟨rfl, rfl⟩

/-- C7 (amended): the confidence equals the spec's weighted capped sum
and always lies in [0, 1] (also at the pipeline level); but for an
unknown-intent, zero-entity input the provable bound is 0.2, not the
claimed 0.12, because the task-word (+0.12) and action-verb (+0.08)
terms can both still fire. -/
theorem c7_confidence (text : List Char) (intent : Intent)
    (entities : List EntityMatch) (now : PyDateTime) :
    calculate_confidence text intent entities = confidence_spec text intent entities ∧
    (0 ≤ calculate_confidence text intent entities ∧
      calculate_confidence text intent entities ≤ 1) ∧
    (intent = Intent.unknown → entities = [] →
      calculate_confidence text intent entities ≤ 1/5) ∧
    (0 ≤ (processPure now text).confidence ∧ (processPure now text).confidence ≤ 1) := by
  refine ⟨conf_eq_spec text intent entities, conf_bounds text intent entities,
    fun hi he => conf_unknown_bound text intent entities hi he, ?_⟩
  exact conf_bounds (pyStrip (text.map pyLowerChar))
    (detect_intent (pyStrip (text.map pyLowerChar))) (extract_entities text)

/-- C7, counterexample to the frozen claim's 0.12 bound: 'task update'
has unknown intent and no entities, yet its confidence is exactly 0.2,
because the literal word 'task' and the action verb 'update' both
match. -/
theorem c7_counterexample :
    detect_intent (pyStrip ((("task update").toList).map pyLowerChar)) = Intent.unknown ∧
    extract_entities (("task update").toList) = [] ∧
    (processPure ⟨0, 0, 0, 0, 0⟩ (("task update").toList)).confidence = 1/5 ∧
    ¬ ((1 : ℚ)/5 ≤ 12/100) := by
  refine ⟨rfl, rfl, ?_, by norm_num⟩
  show calculate_confidence (pyStrip ((("task update").toList).map pyLowerChar))
      (detect_intent (pyStrip ((("task update").toList).map pyLowerChar)))
      (extract_entities (("task update").toList)) = 1/5
  rw [show detect_intent (pyStrip ((("task update").toList).map pyLowerChar)) =
        Intent.unknown from rfl,
    show extract_entities (("task update").toList) = [] from rfl]
  unfold calculate_confidence
  rw [show taskWordSearch (pyStrip ((("task update").toList).map pyLowerChar)) = true from rfl,
    show actionVerbSearch (pyStrip ((("task update").toList).map pyLowerChar)) = true from rfl]
  norm_num [pymin]

/-- C8: confirmed.  When the only date cue is a malformed explicit
day/month[/year] date (no relative word, no weekday match) the `datetime`
constructor guard makes `mkDatetime` return `none` instead of raising,
and the result is exactly the time-only default: today with the
extracted time when one is present, or no timestamp at all. -/
theorem c8_malformed_date (now : PyDateTime) (text : List Char) (d m : Nat)
    (yo : Option Nat)
    (h1 : relativesFind text = none)
    (h2 : weekdaySearchIdx text = none)
    (h3 : euDateFind text = some (d, m, yo))
    (h4 : isValidPyDate (yo.elim (yearOf now) Int.ofNat) m d = false) :
    extractDatetime now text false =
      (extract_time text).map (fun t => setHMS now t.1 t.2) := by
  unfold extractDatetime extract_datetime_iso find_weekday_days_ahead
  simp only [h1, h2, h3, mkDatetime, h4, Bool.false_eq_true, if_false]
  cases ht : extract_time text with
  | none => simp [ht]
  | some t => simp [ht]

/-- C8, witness: 'fix pump 31/02 14:30' (February 31st does not exist)
resolves to today at 14:30 at the concrete `now` 1970-01-01 09:00. -/
theorem c8_witness :
    extractDatetime ⟨0, 9, 0, 0, 0⟩ (("fix pump 31/02 14:30").toList) false =
      (extract_time (("fix pump 31/02 14:30").toList)).map
        (fun t => setHMS ⟨0, 9, 0, 0, 0⟩ t.1 t.2) :=
  c8_malformed_date ⟨0, 9, 0, 0, 0⟩ (("fix pump 31/02 14:30").toList) 31 2 none
    rfl rfl rfl rfl

/-- C9: refuted by the code (code bug).  `next_weekday_delta` re-reads
`LOCAL_NOW()` instead of using the `now` captured at the top of
`_extract_datetime_iso`.  Two clock streams that agree on the first
reading (Thursday 1970-01-01 10:00) but differ on the second (the second
stream has ticked to Friday) give different due dates for 'παρασκευή':
Friday 1970-01-02 versus 1970-01-08. -/
theorem c9_clock_reread :
    ((fun _ => (⟨0, 10, 0, 0, 0⟩ : PyDateTime)) 0 : PyDateTime) =
      ((fun n => if n = 0 then (⟨0, 10, 0, 0, 0⟩ : PyDateTime) else ⟨1, 10, 0, 0, 0⟩) 0) ∧
    processDueDate (fun _ => (⟨0, 10, 0, 0, 0⟩ : PyDateTime)) (("παρασκευή").toList) =
      some ⟨1, 10, 0, 0, 0⟩ ∧
    processDueDate (fun n => if n = 0 then (⟨0, 10, 0, 0, 0⟩ : PyDateTime) else ⟨1, 10, 0, 0, 0⟩)
        (("παρασκευή").toList) = some ⟨7, 10, 0, 0, 0⟩ ∧
    processDueDate (fun _ => (⟨0, 10, 0, 0, 0⟩ : PyDateTime)) (("παρασκευή").toList) ≠
      processDueDate (fun n => if n = 0 then (⟨0, 10, 0, 0, 0⟩ : PyDateTime) else ⟨1, 10, 0, 0, 0⟩)
        (("παρασκευή").toList) := by
  refine ⟨rfl, rfl, rfl, ?_⟩
  intro h
  rw [show processDueDate (fun _ => (⟨0, 10, 0, 0, 0⟩ : PyDateTime)) (("παρασκευή").toList) =
        some ⟨1, 10, 0, 0, 0⟩ from rfl,
    show processDueDate (fun n => if n = 0 then (⟨0, 10, 0, 0, 0⟩ : PyDateTime) else ⟨1, 10, 0, 0, 0⟩)
        (("παρασκευή").toList) = some ⟨7, 10, 0, 0, 0⟩ from rfl] at h
  exact absurd (Option.some.inj h) (by decide)

/-- C10: confirmed.  The due-date call scans the whole text, so a date
cue that appears only after the from/από marker still determines
due_date ('fix the pump from αύριο' gives due = start = now + 1 day for
every `now`), while the start-date call restricts its search to the
suffix after the marker ('αύριο fix the pump' has a due date but no
start date). -/
theorem c10_from_scope (now : PyDateTime) :
    extractDatetime now (("fix the pump from αύριο").toList) false =
      some (addDays now 1) ∧
    extractDatetime now (("fix the pump from αύριο").toList) true =
      some (addDays now 1) ∧
    extractDatetime now (("αύριο fix the pump").toList) false =
      some (addDays now 1) ∧
    extractDatetime now (("αύριο fix the pump").toList) true = none :=
  ⟨rfl, rfl, rfl, rfl⟩

end FsaNlp
